import Mathlib

/-!
Verification development for the link-graph job core of this repository
(`src/linkgraph/linkgraphjob.cpp`): the `Path` flow-push tree, the
`LinkGraphJob` flow-erasure helper, and the `FinaliseJob` merge protocol.

Machine integers of the C++ source (`uint` = 32-bit unsigned) are modelled as
`Nat` with an explicit `% 2^32` wherever the C++ arithmetic can wrap
(multiplication in the saturation clamp, the `+=` flow updates, the
`num_children` increments/decrements, and the `distance` accumulation in
`Path::Fork`).  `int` fields (`free_capacity`) are modelled as `Int`; the only
operation performed on them here is `min`, which cannot overflow.

Parts of the repository that the merge protocol calls but that are not under
`src/` (the `FlowStatMap` container, `Station`/`GoodsEntry` lookup,
`Path::Detach`/`SetParent` from the header, `FlowStat::Invalidate`) are
modelled from the specification; each such definition carries a doc comment
starting with `Modelled from the spec:`.
-/

/-- `2^32`, the modulus of the C++ `uint` arithmetic. -/
def U32 : Nat := 4294967296

/-- `UINT_MAX`, the sentinel used by `Path::AddFlow` for "no saturation limit"
and by the `Path` constructor for unlimited capacity. -/
def UINT32_MAX : Nat := 4294967295

/-- `INVALID_NODE` (`NodeID` is a 16-bit id in the source). -/
def INVALID_NODE : Nat := 65535

/-- `INT_MAX` for the 32-bit `int` `free_capacity` field. -/
def INT32_MAX : Int := 2147483647

/-- `INT_MIN` for the 32-bit `int` `free_capacity` field. -/
def INT32_MIN : Int := -2147483648

/-- One edge annotation as seen by `Path::AddFlow`: the underlying edge's
capacity (read via `edge.Capacity()`) and the flow counter mutated by
`edge.AddFlow(...)`. -/
structure EdgeData where
  capacity : Nat
  flow : Nat
deriving DecidableEq

/-- The job's edge-annotation table, indexed by (origin node, destination
node), as accessed by `job[parent->node][this->node]`. -/
abbrev EdgeState : Type := Nat → Nat → EdgeData

/-- The per-leg state of a `Path` that `AddFlow` reads and writes: the node
this leg arrives at and the leg's own flow tally. -/
structure PathLeg where
  node : Nat
  flow : Nat
deriving DecidableEq

/-- `edge.AddFlow(amount)`: add `amount` to the flow counter of edge `(a, b)`,
with `uint` wrap-around.  Modelled from the spec: the `Edge::AddFlow` proxy
method lives in the header `linkgraphjob.h`, which is not under `src/`; the
spec says "Apply the accepted amount to the underlying parent→node edge's
flow counter". -/
def updateEdgeFlow (es : EdgeState) (a b : Nat) (amount : Nat) : EdgeState :=
  fun x y =>
    if x = a ∧ y = b then { es x y with flow := ((es x y).flow + amount) % U32 }
    else es x y

/-- Result of one `Path::AddFlow` call: the returned amount, the updated leg,
the updated ancestor legs (leaf-to-root order), the updated edge annotations,
and the job's path-registration log (the `Paths().push_back(this)` calls,
recorded as (parent node, this node) pairs in execution order). -/
structure AddFlowResult where
  pushed : Nat
  leg : PathLeg
  ancestors : List PathLeg
  es : EdgeState
  reg : List (Nat × Nat)

/-- `Path::AddFlow(new_flow, job, max_saturation)` from
`src/linkgraph/linkgraphjob.cpp` lines 299-319.  The leg's ancestor chain
(`GetParent()` links) is passed explicitly, leaf-to-root; the root leg is the
one whose ancestor list is empty (`GetParent() == nullptr`).

The clamp reads `edge.Capacity() * max_saturation / 100` in `uint`
arithmetic, so the product wraps modulo `2^32` before the division; the clamp
reads the edge's flow *before* the recursive call and the edge's flow update
happens *after* it, exactly as in the source. -/
def Path.addFlow : PathLeg → List PathLeg → EdgeState → Nat → Nat → List (Nat × Nat) → AddFlowResult
  | leg, [], es, new_flow, _max_saturation, reg =>
      ⟨new_flow, { leg with flow := (leg.flow + new_flow) % U32 }, [], es, reg⟩
  | leg, par :: rest, es, new_flow, max_saturation, reg =>
      let e := es par.node leg.node
      if max_saturation ≠ UINT32_MAX ∧ e.capacity * max_saturation % U32 / 100 ≤ e.flow then
        ⟨0, leg, par :: rest, es, reg⟩
      else
        let nf1 := if max_saturation ≠ UINT32_MAX then
            min new_flow (e.capacity * max_saturation % U32 / 100 - e.flow)
          else new_flow
        let r := Path.addFlow par rest es nf1 max_saturation reg
        let reg2 := if leg.flow = 0 ∧ 0 < r.pushed then r.reg ++ [(par.node, leg.node)] else r.reg
        let es2 := updateEdgeFlow r.es par.node leg.node r.pushed
        ⟨r.pushed, { leg with flow := (leg.flow + r.pushed) % U32 }, r.leg :: r.ancestors, es2, reg2⟩

/-- The job edges traversed by an `AddFlow` call on a leg with the given
ancestor chain: the (parent node, child node) pair of every parent link. -/
def chainEdges : PathLeg → List PathLeg → List (Nat × Nat)
  | _, [] => []
  | leg, par :: rest => (par.node, leg.node) :: chainEdges par rest

theorem addFlow_pushed_le (ancestors : List PathLeg) :
    ∀ (leg : PathLeg) (es : EdgeState) (nf ms : Nat) (reg : List (Nat × Nat)),
      (Path.addFlow leg ancestors es nf ms reg).pushed ≤ nf := by
  induction ancestors with
  | nil => intro leg es nf ms reg; simp [Path.addFlow]
  | cons par rest ih =>
      intro leg es nf ms reg
      simp only [Path.addFlow]
      split
      · simp
      · refine le_trans (ih par es _ ms reg) ?_
        split
        · exact min_le_left _ _
        · exact le_refl _

theorem addFlow_leg_eq (ancestors : List PathLeg) (leg : PathLeg) (es : EdgeState)
    (nf ms : Nat) (reg : List (Nat × Nat)) (h : leg.flow < U32) :
    (Path.addFlow leg ancestors es nf ms reg).leg =
      { leg with flow := (leg.flow + (Path.addFlow leg ancestors es nf ms reg).pushed) % U32 } := by
  cases ancestors with
  | nil => simp [Path.addFlow]
  | cons par rest =>
      simp only [Path.addFlow]
      split
      · simp [Nat.mod_eq_of_lt h]
      · rfl

/-- C4: `Path::AddFlow` returns at most the requested amount, never a negative
amount, and the returned amount is exactly what is applied (with `uint`
wrap-around) to this leg's own flow tally (which is a `uint`, hence the
hypothesis that it is in 32-bit range). -/
theorem addFlow_return_le_requested (ancestors : List PathLeg) (leg : PathLeg)
    (es : EdgeState) (nf ms : Nat) (reg : List (Nat × Nat)) (h : leg.flow < U32) :
    (Path.addFlow leg ancestors es nf ms reg).pushed ≤ nf ∧
    0 ≤ (Path.addFlow leg ancestors es nf ms reg).pushed ∧
    (Path.addFlow leg ancestors es nf ms reg).leg =
      { leg with flow := (leg.flow + (Path.addFlow leg ancestors es nf ms reg).pushed) % U32 } :=
  ⟨addFlow_pushed_le ancestors leg es nf ms reg, Nat.zero_le _,
    addFlow_leg_eq ancestors leg es nf ms reg h⟩

theorem addFlow_return_le_requested_witness :
    (Path.addFlow ⟨1, 7⟩ [⟨0, 0⟩] (fun _ _ => ⟨100, 0⟩) 30 100 []).pushed ≤ 30 ∧
    0 ≤ (Path.addFlow ⟨1, 7⟩ [⟨0, 0⟩] (fun _ _ => ⟨100, 0⟩) 30 100 []).pushed ∧
    (Path.addFlow ⟨1, 7⟩ [⟨0, 0⟩] (fun _ _ => ⟨100, 0⟩) 30 100 []).leg =
      { node := 1, flow := (7 + (Path.addFlow ⟨1, 7⟩ [⟨0, 0⟩] (fun _ _ => ⟨100, 0⟩) 30 100 []).pushed) % U32 } :=
  addFlow_return_le_requested [⟨0, 0⟩] ⟨1, 7⟩ (fun _ _ => ⟨100, 0⟩) 30 100 [] (by decide)

/-- C10: on a root leg (no parent), `AddFlow` ignores `max_saturation`,
touches no edge, applies exactly the requested amount to the leg's own flow
tally (`uint` addition) and returns exactly the requested amount. -/
theorem addFlow_root_leg (leg : PathLeg) (es : EdgeState) (nf ms : Nat)
    (reg : List (Nat × Nat)) :
    Path.addFlow leg [] es nf ms reg =
      ⟨nf, { leg with flow := (leg.flow + nf) % U32 }, [], es, reg⟩ :=
  rfl

theorem updateEdgeFlow_at (es : EdgeState) (a b : Nat) (amt : Nat) :
    updateEdgeFlow es a b amt a b = { es a b with flow := ((es a b).flow + amt) % U32 } := by
  simp [updateEdgeFlow]

theorem updateEdgeFlow_ne (es : EdgeState) (a b x y : Nat) (amt : Nat)
    (h : ¬(x = a ∧ y = b)) : updateEdgeFlow es a b amt x y = es x y := by
  simp only [updateEdgeFlow, if_neg h]

/-- The usable-capacity bound `edge.Capacity() * max_saturation / 100`
computed by `AddFlow` in `uint` arithmetic. -/
def usableCap (es : EdgeState) (a b : Nat) (ms : Nat) : Nat :=
  (es a b).capacity * ms % U32 / 100

/-- The clamped request: `min(new_flow, usable_cap - edge.Flow())` when
`max_saturation` is finite, the unmodified request otherwise. -/
def clampFlow (es : EdgeState) (par leg : PathLeg) (ms nf : Nat) : Nat :=
  if ms ≠ UINT32_MAX then
    min nf (usableCap es par.node leg.node ms - (es par.node leg.node).flow)
  else nf

theorem addFlow_cons_sat (leg par : PathLeg) (rest : List PathLeg) (es : EdgeState)
    (nf ms : Nat) (reg : List (Nat × Nat)) (hms : ms ≠ UINT32_MAX)
    (hsat : usableCap es par.node leg.node ms ≤ (es par.node leg.node).flow) :
    Path.addFlow leg (par :: rest) es nf ms reg = ⟨0, leg, par :: rest, es, reg⟩ := by
  rw [Path.addFlow]
  exact if_pos ⟨hms, hsat⟩

theorem addFlow_cons_unsat_es (leg par : PathLeg) (rest : List PathLeg) (es : EdgeState)
    (nf ms : Nat) (reg : List (Nat × Nat))
    (h : ¬(ms ≠ UINT32_MAX ∧ usableCap es par.node leg.node ms ≤ (es par.node leg.node).flow)) :
    (Path.addFlow leg (par :: rest) es nf ms reg).es =
      updateEdgeFlow (Path.addFlow par rest es (clampFlow es par leg ms nf) ms reg).es
        par.node leg.node
        (Path.addFlow par rest es (clampFlow es par leg ms nf) ms reg).pushed := by
  rw [Path.addFlow]
  rw [if_neg (show ¬(ms ≠ UINT32_MAX ∧
      (es par.node leg.node).capacity * ms % U32 / 100 ≤ (es par.node leg.node).flow) from h)]
  rfl

theorem addFlow_cons_unsat_pushed (leg par : PathLeg) (rest : List PathLeg) (es : EdgeState)
    (nf ms : Nat) (reg : List (Nat × Nat))
    (h : ¬(ms ≠ UINT32_MAX ∧ usableCap es par.node leg.node ms ≤ (es par.node leg.node).flow)) :
    (Path.addFlow leg (par :: rest) es nf ms reg).pushed =
      (Path.addFlow par rest es (clampFlow es par leg ms nf) ms reg).pushed := by
  rw [Path.addFlow]
  rw [if_neg (show ¬(ms ≠ UINT32_MAX ∧
      (es par.node leg.node).capacity * ms % U32 / 100 ≤ (es par.node leg.node).flow) from h)]
  rfl

theorem addFlow_es_off_chain (ancestors : List PathLeg) :
    ∀ (leg : PathLeg) (es : EdgeState) (nf ms : Nat) (reg : List (Nat × Nat)) (a b : Nat),
      (a, b) ∉ chainEdges leg ancestors →
      (Path.addFlow leg ancestors es nf ms reg).es a b = es a b := by
  induction ancestors with
  | nil => intro leg es nf ms reg a b _; rfl
  | cons par rest ih =>
      intro leg es nf ms reg a b hmem
      rw [chainEdges] at hmem
      simp only [List.mem_cons, not_or] at hmem
      obtain ⟨hhead, htail⟩ := hmem
      by_cases hsat : ms ≠ UINT32_MAX ∧
          usableCap es par.node leg.node ms ≤ (es par.node leg.node).flow
      · rw [addFlow_cons_sat leg par rest es nf ms reg hsat.1 hsat.2]
      · rw [addFlow_cons_unsat_es leg par rest es nf ms reg hsat]
        rw [updateEdgeFlow_ne]
        · exact ih par es _ ms reg a b htail
        · intro ⟨ha, hb⟩; exact hhead (by rw [ha, hb])

theorem addFlow_es_on_chain (ancestors : List PathLeg) :
    ∀ (leg : PathLeg) (es : EdgeState) (nf ms : Nat) (reg : List (Nat × Nat)) (a b : Nat),
      (chainEdges leg ancestors).Nodup → ms ≠ UINT32_MAX →
      (a, b) ∈ chainEdges leg ancestors →
      ((Path.addFlow leg ancestors es nf ms reg).es a b).capacity = (es a b).capacity ∧
      ((Path.addFlow leg ancestors es nf ms reg).es a b).flow ≤
          max ((es a b).flow) (usableCap es a b ms) := by
  induction ancestors with
  | nil => intro leg es nf ms reg a b _ _ hmem; cases hmem
  | cons par rest ih =>
      intro leg es nf ms reg a b hnd hms hmem
      rw [chainEdges] at hmem hnd
      have hndtail : (chainEdges par rest).Nodup := hnd.of_cons
      have hhead : (par.node, leg.node) ∉ chainEdges par rest := (List.nodup_cons.mp hnd).1
      simp only [List.mem_cons] at hmem
      by_cases hsat : ms ≠ UINT32_MAX ∧
          usableCap es par.node leg.node ms ≤ (es par.node leg.node).flow
      · rw [addFlow_cons_sat leg par rest es nf ms reg hsat.1 hsat.2]
        exact ⟨rfl, le_max_left _ _⟩
      · rw [addFlow_cons_unsat_es leg par rest es nf ms reg hsat]
        rcases hmem with heq | htail
        · obtain ⟨ha, hb⟩ : a = par.node ∧ b = leg.node :=
            ⟨congrArg Prod.fst heq, congrArg Prod.snd heq⟩
          rw [ha, hb]
          have hES := addFlow_es_off_chain rest par es
            (clampFlow es par leg ms nf) ms reg par.node leg.node hhead
          rw [updateEdgeFlow_at, hES]
          refine ⟨rfl, ?_⟩
          have hflt : (es par.node leg.node).flow < usableCap es par.node leg.node ms := by
            by_contra hc
            exact hsat ⟨hms, Nat.le_of_not_lt hc⟩
          have hclamp : clampFlow es par leg ms nf ≤
              usableCap es par.node leg.node ms - (es par.node leg.node).flow := by
            rw [clampFlow, if_pos hms]
            exact min_le_right _ _
          have hp := addFlow_pushed_le rest par es (clampFlow es par leg ms nf) ms reg
          have hple := le_trans hp hclamp
          have hsum : (es par.node leg.node).flow +
              (Path.addFlow par rest es (clampFlow es par leg ms nf) ms reg).pushed ≤
              usableCap es par.node leg.node ms := by omega
          have hlt : (es par.node leg.node).flow +
              (Path.addFlow par rest es (clampFlow es par leg ms nf) ms reg).pushed < U32 := by
            refine lt_of_le_of_lt hsum (lt_of_le_of_lt (Nat.div_le_self _ _) ?_)
            exact Nat.mod_lt _ (by rw [U32]; omega)
          rw [Nat.mod_eq_of_lt hlt]
          exact le_max_of_le_right hsum
        · have hne : ¬(a = par.node ∧ b = leg.node) := by
            intro ⟨ha, hb⟩
            exact hhead (by rw [← ha, ← hb]; exact htail)
          rw [updateEdgeFlow_ne _ _ _ _ _ _ hne]
          exact ih par es _ ms reg a b hndtail hms htail

/-- C3 (amended): provided each job edge appears at most once along the leg's
parent chain, with a finite `max_saturation` any `AddFlow` call keeps every
edge's flow at or below `capacity * max_saturation / 100` (preserving that
invariant from one call to the next), and when the parent edge's flow is
already at or above the usable bound the call pushes 0, performs no state
change at all (no recursion), and records no negative push. -/
theorem addFlow_saturation_amended (leg : PathLeg) (ancestors : List PathLeg)
    (es : EdgeState) (nf ms : Nat) (reg : List (Nat × Nat)) (a b : Nat)
    (hms : ms ≠ UINT32_MAX)
    (hnd : (chainEdges leg ancestors).Nodup)
    (hinv : (es a b).flow ≤ (es a b).capacity * ms / 100) :
    (((es a b).flow ≤ usableCap es a b ms →
        ((Path.addFlow leg ancestors es nf ms reg).es a b).flow ≤
          (es a b).capacity * ms / 100) ∧
     0 ≤ (Path.addFlow leg ancestors es nf ms reg).pushed) ∧
    (∀ (par : PathLeg) (rest : List PathLeg), ancestors = par :: rest →
      usableCap es par.node leg.node ms ≤ (es par.node leg.node).flow →
      Path.addFlow leg ancestors es nf ms reg = ⟨0, leg, ancestors, es, reg⟩) := by
  refine ⟨⟨?_, Nat.zero_le _⟩, ?_⟩
  · intro hinv2
    have hub : usableCap es a b ms ≤ (es a b).capacity * ms / 100 :=
      Nat.div_le_div_right (Nat.mod_le _ _)
    by_cases hmem : (a, b) ∈ chainEdges leg ancestors
    · have := (addFlow_es_on_chain ancestors leg es nf ms reg a b hnd hms hmem).2
      calc ((Path.addFlow leg ancestors es nf ms reg).es a b).flow
          ≤ max ((es a b).flow) (usableCap es a b ms) := this
        _ ≤ (es a b).capacity * ms / 100 := max_le hinv (le_trans (le_refl _) hub)
    · rw [addFlow_es_off_chain ancestors leg es nf ms reg a b hmem]
      exact hinv
  · intro par rest hanc hsat
    subst hanc
    exact addFlow_cons_sat leg par rest es nf ms reg hms hsat

theorem addFlow_saturation_amended_witness :
    ((((fun _ _ => (⟨100, 20⟩ : EdgeData)) : EdgeState) 0 1).flow ≤
        usableCap (fun _ _ => ⟨100, 20⟩) 0 1 100 →
      ((Path.addFlow ⟨1, 0⟩ [⟨0, 0⟩] (fun _ _ => ⟨100, 20⟩) 50 100 []).es 0 1).flow ≤
        ((((fun _ _ => (⟨100, 20⟩ : EdgeData)) : EdgeState) 0 1).capacity * 100 / 100)) ∧
    (∀ (par : PathLeg) (rest : List PathLeg), [(⟨0, 0⟩ : PathLeg)] = par :: rest →
      usableCap (fun _ _ => ⟨100, 20⟩) par.node 1 100 ≤
        (((fun _ _ => (⟨100, 20⟩ : EdgeData)) : EdgeState) par.node 1).flow →
      Path.addFlow ⟨1, 0⟩ [⟨0, 0⟩] (fun _ _ => ⟨100, 20⟩) 50 100 [] =
        ⟨0, ⟨1, 0⟩, [⟨0, 0⟩], fun _ _ => ⟨100, 20⟩, []⟩) := by
  have h := addFlow_saturation_amended ⟨1, 0⟩ [⟨0, 0⟩] (fun _ _ => ⟨100, 20⟩) 50 100 [] 0 1
    (by decide) (by decide) (by decide)
  exact ⟨h.1.1, h.2⟩

/-- C3 counterexample: a parent chain that traverses the same job edge (0, 1)
twice (leaf at node 1 ← node 0 ← node 1 ← root at node 0; such a chain is
constructible with `Path::Fork`, whose `assert(distance > 0)` all four legs
can satisfy).  All edges start with capacity 100 and flow 0, and
`max_saturation = 100` is finite, so the claimed bound for edge (0, 1) is
`100 * 100 / 100 = 100`; a single `AddFlow(100)` call drives that edge's flow
to 200, because the saturation clamp for the lower occurrence was computed
before the upper occurrence added its flow. -/
theorem addFlow_saturation_counterexample :
    (100 : Nat) ≠ UINT32_MAX ∧
    (((fun _ _ => (⟨100, 0⟩ : EdgeData)) : EdgeState) 0 1).flow = 0 ∧
    ((Path.addFlow ⟨1, 0⟩ [⟨0, 0⟩, ⟨1, 0⟩, ⟨0, 0⟩]
        (fun _ _ => ⟨100, 0⟩) 100 100 []).es 0 1).flow = 200 ∧
    ¬((200 : Nat) ≤
        (((fun _ _ => (⟨100, 0⟩ : EdgeData)) : EdgeState) 0 1).capacity * 100 / 100) := by
  refine ⟨by decide, rfl, ?_, by decide⟩
  decide

/-- The full per-leg state of a `Path` object (`linkgraphjob.h` field set as
used by `Path::Fork`, `Path::AddFlow` and the constructor). -/
structure PathData where
  distance : Nat
  capacity : Nat
  free_capacity : Int
  flow : Nat
  node : Nat
  origin : Nat
  num_children : Nat
  parent : Option Nat
deriving DecidableEq

instance : Inhabited PathData := ⟨⟨0, 0, 0, 0, 0, 0, 0, none⟩⟩

/-- `Path::Path(n, source)` (lines 326-332): a source leg has distance 0,
maximal capacity/free capacity and itself as origin; a non-source leg starts
with the `UINT_MAX` distance sentinel, zero capacity, minimal free capacity
and `INVALID_NODE` as origin. -/
def mkPath (n : Nat) (source : Bool) : PathData :=
  { distance := if source then 0 else UINT32_MAX
    capacity := if source then UINT32_MAX else 0
    free_capacity := if source then INT32_MAX else INT32_MIN
    flow := 0
    node := n
    origin := if source then n else INVALID_NODE
    num_children := 0
    parent := none }

/-- Path objects live in an arena addressed by stable index; parent links are
indices into the arena (the raw-pointer forest of the source). -/
abbrev PathArena : Type := List PathData

/-- Read an arena slot (out-of-range reads return the default element; the
theorems below always hypothesise in-range indices). -/
def peek (a : PathArena) (k : Nat) : PathData := a.getD k default

/-- `num_children++` in `uint` arithmetic. -/
def incU32 (n : Nat) : Nat := (n + 1) % U32

/-- `num_children--` in `uint` arithmetic. -/
def decU32 (n : Nat) : Nat := (n + (U32 - 1)) % U32

/-- The first half of `Path::Fork` (lines 279-281): the three field updates
`capacity = min(base->capacity, cap)`, `free_capacity = min(base->free_capacity,
free_cap)`, `distance = base->distance + dist` (with `uint` wrap) on the arena
slot `i` with base slot `b`.  Each of the three source statements reads only
fields that no earlier statement has written (even when `base == this`), so
the sequence is equivalently a single update whose right-hand sides all read
the pre-call state. -/
def forkFields (a : PathArena) (i b : Nat) (cap : Nat) (free_cap : Int) (dist : Nat) :
    PathArena :=
  a.set i { peek a i with
    capacity := min (peek a b).capacity cap
    free_capacity := min (peek a b).free_capacity free_cap
    distance := ((peek a b).distance + dist) % U32 }

/-- `Path::Detach()`.  Modelled from the spec: `Detach` lives in the header
(not under `src/`); the spec says a leg "is detached from its old parent
(decrementing that parent's child count)", the parent link becoming unset. -/
def detach (a : PathArena) (i : Nat) : PathArena :=
  match (peek a i).parent with
  | some p =>
      (a.set p { peek a p with num_children := decU32 (peek a p).num_children }).set i
        { peek (a.set p { peek a p with
            num_children := decU32 (peek a p).num_children }) i with parent := none }
  | none => a

/-- The reparenting half of `Path::Fork` (lines 283-287): if the current
parent differs from `base`, detach, set the parent link to `base`
(`SetParent`, from the header, modelled from the spec) and increment `base`'s
child count. -/
def forkAttach (a : PathArena) (i b : Nat) : PathArena :=
  if (peek a i).parent ≠ some b then
    let ad := detach a i
    let ae := ad.set i { peek ad i with parent := some b }
    ae.set b { peek ae b with num_children := incU32 (peek ae b).num_children }
  else a

/-- `Path::Fork(base, cap, free_cap, dist)` (lines 277-289): field updates,
then reparenting, then `origin = base->origin`.  The source's
`assert(this->distance > 0)` is not a state change and is reflected in the
theorems as a side condition on the resulting distance. -/
def Path.fork (a : PathArena) (i b : Nat) (cap : Nat) (free_cap : Int) (dist : Nat) :
    PathArena :=
  let a3 := forkFields a i b cap free_cap dist
  let a4 := forkAttach a3 i b
  a4.set i { peek a4 i with origin := (peek a4 b).origin }

theorem peek_set_eq (a : PathArena) (i : Nat) (x : PathData) (h : i < a.length) :
    peek (a.set i x) i = x := by
  simp only [peek]
  rw [List.getD_eq_getElem?_getD, List.getElem?_set_self (by simpa using h)]
  rfl

theorem peek_set_ne (a : PathArena) (i j : Nat) (x : PathData) (h : i ≠ j) :
    peek (a.set i x) j = peek a j := by
  simp only [peek]
  rw [List.getD_eq_getElem?_getD, List.getElem?_set_ne h, ← List.getD_eq_getElem?_getD]

theorem peek_set_proj {β : Type} (f : PathData → β) (a : PathArena) (i : Nat) (x : PathData)
    (hx : f x = f (peek a i)) (j : Nat) : f (peek (a.set i x) j) = f (peek a j) := by
  by_cases hj : i = j
  · subst hj
    by_cases hlt : i < a.length
    · rw [peek_set_eq a i x hlt, hx]
    · rw [List.set_eq_of_length_le (Nat.le_of_not_lt hlt)]
  · rw [peek_set_ne a i j x hj]

theorem decU32_eq (n : Nat) (h1 : 1 ≤ n) (h2 : n < U32) : decU32 n = n - 1 := by
  simp only [decU32, U32] at *
  omega

theorem incU32_eq (n : Nat) (h : n + 1 < U32) : incU32 n = n + 1 := by
  simp only [incU32, U32] at *
  omega

theorem forkFields_length (a : PathArena) (i b : Nat) (cap : Nat) (fc : Int) (dist : Nat) :
    (forkFields a i b cap fc dist).length = a.length := by
  simp [forkFields]

theorem forkFields_proj {β : Type} (f : PathData → β)
    (hx : ∀ (q : PathData) (c : Nat) (v : Int) (d : Nat),
      f { q with
        capacity := c
        free_capacity := v
        distance := d } = f q)
    (a : PathArena) (i b : Nat) (cap : Nat) (fc : Int) (dist : Nat) (j : Nat) :
    f (peek (forkFields a i b cap fc dist) j) = f (peek a j) := by
  simp only [forkFields]
  exact peek_set_proj f a i _ (hx _ _ _ _) j

theorem detach_eq_some (a : PathArena) (i p : Nat) (h : (peek a i).parent = some p) :
    detach a i =
      (a.set p { peek a p with num_children := decU32 (peek a p).num_children }).set i
        { peek (a.set p { peek a p with
            num_children := decU32 (peek a p).num_children }) i with parent := none } := by
  rw [detach, h]

theorem detach_eq_none (a : PathArena) (i : Nat) (h : (peek a i).parent = none) :
    detach a i = a := by
  rw [detach, h]

theorem detach_length (a : PathArena) (i : Nat) : (detach a i).length = a.length := by
  rcases h : (peek a i).parent with _ | p
  · rw [detach_eq_none a i h]
  · rw [detach_eq_some a i p h]
    simp

theorem forkAttach_ne (a : PathArena) (i b : Nat) (h : (peek a i).parent ≠ some b) :
    forkAttach a i b =
      ((detach a i).set i { peek (detach a i) i with parent := some b }).set b
        { peek ((detach a i).set i { peek (detach a i) i with parent := some b }) b with
          num_children :=
            incU32 (peek ((detach a i).set i
              { peek (detach a i) i with parent := some b }) b).num_children } := by
  rw [forkAttach, if_pos h]

theorem forkAttach_eq (a : PathArena) (i b : Nat) (h : (peek a i).parent = some b) :
    forkAttach a i b = a := by
  rw [forkAttach, if_neg (by simp [h])]

/-- C9: reparenting via `Path::Fork` keeps child counts exact: forking onto a
base different from the current parent decrements the old parent's child
count by exactly 1 and increments the base's by exactly 1 (leaving all other
counts alone), while forking again onto the current parent changes no child
count at all.  Counts are `uint`s, hence the 32-bit range hypotheses. -/
theorem fork_child_counts (a : PathArena) (i b p : Nat) (cap : Nat) (fc : Int) (dist : Nat)
    (hb : b < a.length) (hp : p < a.length)
    (hpar : (peek a i).parent = some p) (hpi : p ≠ i) (hbi : b ≠ i) :
    (p ≠ b → 1 ≤ (peek a p).num_children → (peek a p).num_children < U32 →
      (peek a b).num_children + 1 < U32 →
      (peek (Path.fork a i b cap fc dist) p).num_children = (peek a p).num_children - 1 ∧
      (peek (Path.fork a i b cap fc dist) b).num_children = (peek a b).num_children + 1 ∧
      (∀ j, j ≠ p → j ≠ b →
        (peek (Path.fork a i b cap fc dist) j).num_children = (peek a j).num_children)) ∧
    ((peek a i).parent = some b → ∀ j,
      (peek (Path.fork a i b cap fc dist) j).num_children = (peek a j).num_children) := by
  have hncF : ∀ j, (peek (forkFields a i b cap fc dist) j).num_children =
      (peek a j).num_children :=
    forkFields_proj (fun q => q.num_children) (fun _ _ _ _ => rfl) a i b cap fc dist
  have hparF : ∀ j, (peek (forkFields a i b cap fc dist) j).parent = (peek a j).parent :=
    forkFields_proj (fun q => q.parent) (fun _ _ _ _ => rfl) a i b cap fc dist
  constructor
  · intro hpb h1 h2 h3
    have hd : (peek (forkFields a i b cap fc dist) i).parent = some p := by
      rw [hparF i, hpar]
    have hcond : (peek (forkFields a i b cap fc dist) i).parent ≠ some b := by
      rw [hd]
      intro hS
      exact hpb (Option.some.inj hS)
    simp only [Path.fork]
    rw [forkAttach_ne _ i b hcond, detach_eq_some _ i p hd]
    set A3 := forkFields a i b cap fc dist with hA3
    set X := { peek A3 p with num_children := decU32 (peek A3 p).num_children } with hX
    set SP := A3.set p X with hSP
    set Y := { peek SP i with parent := none } with hY
    set AD := SP.set i Y with hAD
    set W := { peek AD i with parent := some b } with hW
    set AE := AD.set i W with hAE
    set Z := { peek AE b with num_children := incU32 (peek AE b).num_children } with hZ
    set A4 := AE.set b Z with hA4
    set O := { peek A4 i with origin := (peek A4 b).origin } with hO
    have hlen3 : A3.length = a.length := by rw [hA3]; exact forkFields_length a i b cap fc dist
    have hlenAE : AE.length = a.length := by
      rw [hAE, hAD, hSP]
      simp [hlen3]
    have hAEb : (peek AE b).num_children = (peek a b).num_children := by
      rw [hAE, peek_set_ne AD i b W (Ne.symm hbi), hAD,
        peek_set_ne SP i b Y (Ne.symm hbi), hSP, peek_set_ne A3 p b X hpb]
      exact hncF b
    refine ⟨?_, ?_, ?_⟩
    · rw [peek_set_ne A4 i p O (Ne.symm hpi), hA4, peek_set_ne AE b p Z (Ne.symm hpb),
        hAE, peek_set_ne AD i p W (Ne.symm hpi), hAD, peek_set_ne SP i p Y (Ne.symm hpi),
        hSP, peek_set_eq A3 p X (hlen3 ▸ hp), hX]
      show decU32 (peek A3 p).num_children = (peek a p).num_children - 1
      rw [hncF p]
      exact decU32_eq _ h1 h2
    · rw [peek_set_ne A4 i b O (Ne.symm hbi), hA4, peek_set_eq AE b Z (hlenAE ▸ hb), hZ]
      show incU32 (peek AE b).num_children = (peek a b).num_children + 1
      rw [hAEb]
      exact incU32_eq _ h3
    · intro j hjp hjb
      have g1 : (peek (A4.set i O) j).num_children = (peek A4 j).num_children :=
        peek_set_proj (fun q => q.num_children) A4 i O rfl j
      rw [g1, hA4, peek_set_ne AE b j Z (fun h => hjb h.symm), hAE]
      have g2 : (peek (AD.set i W) j).num_children = (peek AD j).num_children :=
        peek_set_proj (fun q => q.num_children) AD i W rfl j
      rw [g2, hAD]
      have g3 : (peek (SP.set i Y) j).num_children = (peek SP j).num_children :=
        peek_set_proj (fun q => q.num_children) SP i Y rfl j
      rw [g3, hSP, peek_set_ne A3 p j X (fun h => hjp h.symm)]
      exact hncF j
  · intro hparb j
    have hcond : (peek (forkFields a i b cap fc dist) i).parent = some b := by
      rw [hparF i, hparb]
    simp only [Path.fork]
    rw [forkAttach_eq _ i b hcond]
    have g1 : (peek ((forkFields a i b cap fc dist).set i
        { peek (forkFields a i b cap fc dist) i with
          origin := (peek (forkFields a i b cap fc dist) b).origin }) j).num_children =
        (peek (forkFields a i b cap fc dist) j).num_children :=
      peek_set_proj (fun q => q.num_children) (forkFields a i b cap fc dist) i
        { peek (forkFields a i b cap fc dist) i with
          origin := (peek (forkFields a i b cap fc dist) b).origin } rfl j
    rw [g1]
    exact hncF j

theorem peek_append_lt (a c : PathArena) (k : Nat) (h : k < a.length) :
    peek (a ++ c) k = peek a k := by
  simp only [peek]
  rw [List.getD_eq_getElem?_getD, List.getElem?_append_left h, ← List.getD_eq_getElem?_getD]

theorem peek_append_last (a : PathArena) (x : PathData) :
    peek (a ++ [x]) a.length = x := by
  simp only [peek]
  rw [List.getD_eq_getElem?_getD, List.getElem?_concat_length]
  rfl

theorem forkAttach_length (a : PathArena) (i b : Nat) :
    (forkAttach a i b).length = a.length := by
  by_cases h : (peek a i).parent = some b
  · rw [forkAttach_eq a i b h]
  · rw [forkAttach_ne a i b h]
    simp [detach_length]

theorem fork_length (a : PathArena) (i b : Nat) (cap : Nat) (fc : Int) (dist : Nat) :
    (Path.fork a i b cap fc dist).length = a.length := by
  simp only [Path.fork]
  rw [List.length_set, forkAttach_length, forkFields_length]

theorem forkFields_peek_i (a : PathArena) (i b : Nat) (cap : Nat) (fc : Int) (dist : Nat)
    (hi : i < a.length) :
    peek (forkFields a i b cap fc dist) i =
      { peek a i with
        capacity := min (peek a b).capacity cap
        free_capacity := min (peek a b).free_capacity fc
        distance := ((peek a b).distance + dist) % U32 } := by
  simp only [forkFields]
  exact peek_set_eq a i _ hi

theorem forkFields_peek_ne (a : PathArena) (i b : Nat) (cap : Nat) (fc : Int) (dist : Nat)
    (j : Nat) (hij : i ≠ j) :
    peek (forkFields a i b cap fc dist) j = peek a j := by
  simp only [forkFields]
  exact peek_set_ne a i j _ hij

theorem fork_fresh (a : PathArena) (i b : Nat) (cap : Nat) (fc : Int) (dist : Nat)
    (hi : i < a.length) (hbi : b ≠ i) (hb : b < a.length)
    (hparent : (peek a i).parent = none) :
    (∀ k, k ≠ i → k ≠ b → peek (Path.fork a i b cap fc dist) k = peek a k) ∧
    peek (Path.fork a i b cap fc dist) b =
      { peek a b with num_children := incU32 (peek a b).num_children } ∧
    peek (Path.fork a i b cap fc dist) i =
      { distance := ((peek a b).distance + dist) % U32,
        capacity := min (peek a b).capacity cap,
        free_capacity := min (peek a b).free_capacity fc,
        flow := (peek a i).flow, node := (peek a i).node,
        origin := (peek a b).origin, num_children := (peek a i).num_children,
        parent := some b } := by
  have hlen3 : (forkFields a i b cap fc dist).length = a.length :=
    forkFields_length a i b cap fc dist
  have hFi : peek (forkFields a i b cap fc dist) i =
      { peek a i with
        capacity := min (peek a b).capacity cap
        free_capacity := min (peek a b).free_capacity fc
        distance := ((peek a b).distance + dist) % U32 } :=
    forkFields_peek_i a i b cap fc dist hi
  have hFb : peek (forkFields a i b cap fc dist) b = peek a b :=
    forkFields_peek_ne a i b cap fc dist b (fun h => hbi h.symm)
  have hd : (peek (forkFields a i b cap fc dist) i).parent = none := by
    rw [hFi]
    exact hparent
  have hcond : (peek (forkFields a i b cap fc dist) i).parent ≠ some b := by
    rw [hd]
    intro hS
    cases hS
  simp only [Path.fork]
  rw [forkAttach_ne _ i b hcond, detach_eq_none _ i hd]
  set A3 := forkFields a i b cap fc dist with hA3
  set W := { peek A3 i with parent := some b } with hW
  set AE := A3.set i W with hAE
  set Z := { peek AE b with num_children := incU32 (peek AE b).num_children } with hZ
  set A4 := AE.set b Z with hA4
  have hlenAE : AE.length = a.length := by rw [hAE, List.length_set, hlen3]
  have hAEi : peek AE i = W := by rw [hAE, peek_set_eq A3 i W (hlen3 ▸ hi)]
  have hAEb : peek AE b = peek a b := by
    rw [hAE, peek_set_ne A3 i b W (fun h => hbi h.symm)]
    exact hFb
  have hA4i : peek A4 i = W := by
    rw [hA4, peek_set_ne AE b i Z hbi]
    exact hAEi
  have hA4b : peek A4 b = Z := by rw [hA4, peek_set_eq AE b Z (hlenAE ▸ hb)]
  have hlenA4 : A4.length = a.length := by rw [hA4, List.length_set, hlenAE]
  refine ⟨?_, ?_, ?_⟩
  · intro k hki hkb
    rw [peek_set_ne A4 i k _ (fun h => hki h.symm), hA4,
      peek_set_ne AE b k Z (fun h => hkb h.symm), hAE,
      peek_set_ne A3 i k W (fun h => hki h.symm), hA3,
      forkFields_peek_ne a i b cap fc dist k (fun h => hki h.symm)]
  · rw [peek_set_ne A4 i b _ (fun h => hbi h.symm), hA4b, hZ, hAEb]
  · rw [peek_set_eq A4 i _ (hlenA4 ▸ hi), hA4i, hA4b, hW, hFi, hZ, hAEb]

/-- A concrete arena for exercising `fork_child_counts`: slot 2 is a leg whose
current parent is slot 0 (which has one child); slot 1 is the new base. -/
def forkArenaW : PathArena :=
  [⟨0, 0, 0, 0, 0, 0, 1, none⟩, ⟨0, 0, 0, 0, 1, 1, 0, none⟩, ⟨5, 3, 2, 0, 2, 2, 0, some 0⟩]

theorem fork_child_counts_witness :
    (peek (Path.fork forkArenaW 2 1 5 5 1) 0).num_children =
      (peek forkArenaW 0).num_children - 1 ∧
    (peek (Path.fork forkArenaW 2 1 5 5 1) 1).num_children =
      (peek forkArenaW 1).num_children + 1 ∧
    (peek (Path.fork forkArenaW 2 1 5 5 1) 2).num_children =
      (peek forkArenaW 2).num_children := by
  have h := (fork_child_counts forkArenaW 2 1 0 5 5 1 (by decide) (by decide) (by decide)
    (by decide) (by decide)).1 (by decide) (by decide) (by decide) (by decide)
  exact ⟨h.1, h.2.1, h.2.2 2 (by decide) (by decide)⟩

/-- The arena of the C5 counterexample: a source root at slot 0 and two fresh
legs, chained by two `Fork` calls, the second with `dist = 0`. -/
def distArenaCex : PathArena :=
  Path.fork (Path.fork [mkPath 0 true, mkPath 1 false, mkPath 2 false] 1 0 10 10 1)
    2 1 10 10 0

/-- C5 counterexample: the chain root (slot 0) ← slot 1 ← slot 2 is built by
two `Path::Fork` calls whose `assert(distance > 0)` both hold, yet the leaf's
distance equals (does not strictly exceed) its parent's, because `Fork` was
given `dist = 0`. -/
theorem fork_distance_counterexample :
    (peek distArenaCex 1).parent = some 0 ∧
    (peek distArenaCex 2).parent = some 1 ∧
    0 < (peek distArenaCex 1).distance ∧
    0 < (peek distArenaCex 2).distance ∧
    ¬((peek distArenaCex 1).distance < (peek distArenaCex 2).distance) := by
  decide

/-- The arguments of one `Path::Fork` call when a chain is built leg by leg:
the node id of the new leg and the `cap`, `free_cap`, `dist` passed to
`Fork`. -/
structure ForkSpec where
  node : Nat
  cap : Nat
  free_cap : Int
  dist : Nat
deriving DecidableEq

/-- Build a chain with `Path::Fork`: starting from an arena whose last slot is
the current leaf, repeatedly append a freshly constructed non-source leg
(`Path(n, false)`) and fork it onto the current leaf. -/
def buildChainAux : PathArena → List ForkSpec → PathArena
  | a, [] => a
  | a, s :: rest =>
      buildChainAux
        (Path.fork (a ++ [mkPath s.node false]) a.length (a.length - 1)
          s.cap s.free_cap s.dist) rest

/-- A whole chain built with `Path::Fork` from a single source leg. -/
def buildChain (root : Nat) (specs : List ForkSpec) : PathArena :=
  buildChainAux [mkPath root true] specs

theorem buildChainAux_spec : ∀ (specs : List ForkSpec) (a : PathArena), 0 < a.length →
    (buildChainAux a specs).length = a.length + specs.length ∧
    (∀ k, k + 1 < a.length → peek (buildChainAux a specs) k = peek a k) ∧
    (∀ k, k + 1 = a.length →
      (peek (buildChainAux a specs) k).distance = (peek a k).distance ∧
      (peek (buildChainAux a specs) k).capacity = (peek a k).capacity ∧
      (peek (buildChainAux a specs) k).free_capacity = (peek a k).free_capacity ∧
      (peek (buildChainAux a specs) k).parent = (peek a k).parent) ∧
    (∀ m s, specs[m]? = some s →
      (peek (buildChainAux a specs) (a.length + m)).parent = some (a.length + m - 1) ∧
      (peek (buildChainAux a specs) (a.length + m)).distance =
        ((peek (buildChainAux a specs) (a.length + m - 1)).distance + s.dist) % U32 ∧
      (peek (buildChainAux a specs) (a.length + m)).capacity =
        min (peek (buildChainAux a specs) (a.length + m - 1)).capacity s.cap ∧
      (peek (buildChainAux a specs) (a.length + m)).free_capacity =
        min (peek (buildChainAux a specs) (a.length + m - 1)).free_capacity s.free_cap) := by
  intro specs
  induction specs with
  | nil =>
      intro a ha
      refine ⟨by simp [buildChainAux], fun k _ => rfl, fun k _ => ⟨rfl, rfl, rfl, rfl⟩, ?_⟩
      intro m s hm
      simp at hm
  | cons s rest ih =>
      intro a ha
      have hAlen : (a ++ [mkPath s.node false]).length = a.length + 1 := by simp
      have hfork := fork_fresh (a ++ [mkPath s.node false]) a.length (a.length - 1)
        s.cap s.free_cap s.dist (by omega) (by omega) (by omega)
        (by rw [peek_append_last]; rfl)
      have hr1len : (Path.fork (a ++ [mkPath s.node false]) a.length (a.length - 1)
          s.cap s.free_cap s.dist).length = a.length + 1 := by
        rw [fork_length, hAlen]
      have hIH := ih (Path.fork (a ++ [mkPath s.node false]) a.length (a.length - 1)
          s.cap s.free_cap s.dist) (by omega)
      have hr1_lt : ∀ k, k + 1 < a.length →
          peek (Path.fork (a ++ [mkPath s.node false]) a.length (a.length - 1)
            s.cap s.free_cap s.dist) k = peek a k := by
        intro k hk
        rw [hfork.1 k (by omega) (by omega), peek_append_lt a _ k (by omega)]
      have hr1_b : peek (Path.fork (a ++ [mkPath s.node false]) a.length (a.length - 1)
          s.cap s.free_cap s.dist) (a.length - 1) =
          { peek a (a.length - 1) with
            num_children := incU32 (peek a (a.length - 1)).num_children } := by
        rw [hfork.2.1, peek_append_lt a _ _ (by omega)]
      have hbase : peek (a ++ [mkPath s.node false]) (a.length - 1) = peek a (a.length - 1) :=
        peek_append_lt a _ _ (by omega)
      have hr1_i : peek (Path.fork (a ++ [mkPath s.node false]) a.length (a.length - 1)
          s.cap s.free_cap s.dist) a.length =
          { distance := ((peek a (a.length - 1)).distance + s.dist) % U32
            capacity := min (peek a (a.length - 1)).capacity s.cap
            free_capacity := min (peek a (a.length - 1)).free_capacity s.free_cap
            flow := (peek (a ++ [mkPath s.node false]) a.length).flow
            node := (peek (a ++ [mkPath s.node false]) a.length).node
            origin := (peek a (a.length - 1)).origin
            num_children := (peek (a ++ [mkPath s.node false]) a.length).num_children
            parent := some (a.length - 1) } := by
        rw [hfork.2.2, hbase]
      simp only [buildChainAux]
      refine ⟨?_, ?_, ?_, ?_⟩
      · rw [hIH.1, hr1len]
        simp
        omega
      · intro k hk
        rw [hIH.2.1 k (by omega), hr1_lt k hk]
      · intro k hk
        have hkk : k = a.length - 1 := by omega
        subst hkk
        have h2 := hIH.2.1 (a.length - 1) (by omega)
        rw [h2, hr1_b]
        exact ⟨rfl, rfl, rfl, rfl⟩
      · intro m t hmt
        match m, hmt with
        | 0, hmt =>
            have hts : t = s := by
              simp at hmt
              exact hmt.symm
            subst hts
            have h3 := hIH.2.2.1 a.length (by omega)
            have h2 := hIH.2.1 (a.length - 1) (by omega)
            simp only [Nat.add_zero]
            refine ⟨?_, ?_, ?_, ?_⟩
            · rw [h3.2.2.2, hr1_i]
            · rw [h3.1, hr1_i, h2, hr1_b]
            · rw [h3.2.1, hr1_i, h2, hr1_b]
            · rw [h3.2.2.1, hr1_i, h2, hr1_b]
        | m' + 1, hmt =>
            have hrest : rest[m']? = some t := by simpa using hmt
            have h4 := hIH.2.2.2 m' t hrest
            rw [hr1len] at h4
            have hidx : a.length + 1 + m' = a.length + (m' + 1) := by omega
            rw [hidx] at h4
            exact h4

/-- Sum of the `dist` arguments of the first `m` forks of a chain build. -/
def distPrefix (specs : List ForkSpec) (m : Nat) : Nat :=
  ((specs.take m).map ForkSpec.dist).sum

theorem distPrefix_le (specs : List ForkSpec) (m : Nat) :
    distPrefix specs m ≤ (specs.map ForkSpec.dist).sum := by
  rw [distPrefix, List.map_take]
  conv_rhs => rw [← List.take_append_drop m (specs.map ForkSpec.dist)]
  rw [List.sum_append]
  exact Nat.le_add_right _ _

theorem distPrefix_succ (specs : List ForkSpec) (m : Nat) (s : ForkSpec)
    (h : specs[m]? = some s) :
    distPrefix specs (m + 1) = distPrefix specs m + s.dist := by
  simp only [distPrefix, List.take_succ, h, Option.toList_some, List.map_append,
    List.sum_append, List.map_cons, List.map_nil, List.sum_cons, List.sum_nil]
  omega

theorem buildChain_distance (root : Nat) (specs : List ForkSpec)
    (hsum : (specs.map ForkSpec.dist).sum ≤ UINT32_MAX) :
    ∀ m, m ≤ specs.length →
      (peek (buildChain root specs) m).distance = distPrefix specs m := by
  intro m
  induction m with
  | zero =>
      intro _
      have h := (buildChainAux_spec specs [mkPath root true] (by simp)).2.2.1 0 (by simp)
      rw [buildChain, h.1]
      simp [distPrefix, peek, mkPath]
  | succ m ihm =>
      intro hm1
      have hmlt : m < specs.length := by omega
      have hsome : specs[m]? = some specs[m] := List.getElem?_eq_getElem hmlt
      have h4 := (buildChainAux_spec specs [mkPath root true] (by simp)).2.2.2 m specs[m] hsome
      have e2 : List.length [mkPath root true] + m - 1 = m := by
        simp only [List.length_singleton]
        omega
      have e1 : List.length [mkPath root true] + m = m + 1 := by
        simp only [List.length_singleton]
        omega
      rw [e2, e1] at h4
      rw [buildChain] at ihm ⊢
      rw [h4.2.1, ihm (by omega)]
      rw [← distPrefix_succ specs m specs[m] hsome]
      have hle : distPrefix specs (m + 1) < U32 :=
        lt_of_le_of_lt (le_trans (distPrefix_le specs (m + 1)) hsum)
          (by rw [UINT32_MAX, U32]; omega)
      exact Nat.mod_eq_of_lt hle

/-- C5 (amended): along a chain built by `Path::Fork` by forking each freshly
constructed leg onto the current leaf (no later re-forking of an ancestor),
provided every fork's `dist` argument is positive and the accumulated distance
stays within the 32-bit range, distance strictly increases from root to leaf
and capacity and free_capacity are non-increasing from root to leaf. -/
theorem buildChain_monotone_amended (root : Nat) (specs : List ForkSpec)
    (hd : ∀ s ∈ specs, 1 ≤ s.dist)
    (hsum : (specs.map ForkSpec.dist).sum ≤ UINT32_MAX) :
    ∀ m, m + 1 < (buildChain root specs).length →
      (peek (buildChain root specs) (m + 1)).parent = some m ∧
      (peek (buildChain root specs) m).distance <
        (peek (buildChain root specs) (m + 1)).distance ∧
      (peek (buildChain root specs) (m + 1)).capacity ≤
        (peek (buildChain root specs) m).capacity ∧
      (peek (buildChain root specs) (m + 1)).free_capacity ≤
        (peek (buildChain root specs) m).free_capacity := by
  intro m hm
  have hlen : (buildChain root specs).length = 1 + specs.length := by
    rw [buildChain, (buildChainAux_spec specs [mkPath root true] (by simp)).1]
    simp
  have hmlt : m < specs.length := by omega
  have hsome : specs[m]? = some specs[m] := List.getElem?_eq_getElem hmlt
  have h4 := (buildChainAux_spec specs [mkPath root true] (by simp)).2.2.2 m specs[m] hsome
  have e2 : List.length [mkPath root true] + m - 1 = m := by
    simp only [List.length_singleton]
    omega
  have e1 : List.length [mkPath root true] + m = m + 1 := by
    simp only [List.length_singleton]
    omega
  rw [e2, e1] at h4
  have hbc : buildChain root specs = buildChainAux [mkPath root true] specs := rfl
  refine ⟨?_, ?_, ?_, ?_⟩
  · rw [hbc]
    exact h4.1
  · rw [buildChain_distance root specs hsum m (by omega),
      buildChain_distance root specs hsum (m + 1) (by omega),
      distPrefix_succ specs m specs[m] hsome]
    have := hd specs[m] (List.getElem_mem hmlt)
    omega
  · rw [hbc]
    rw [h4.2.2.1]
    exact min_le_left _ _
  · rw [hbc]
    rw [h4.2.2.2]
    exact min_le_left _ _

theorem buildChain_monotone_amended_witness :
    (peek (buildChain 7 [⟨1, 10, 10, 2⟩, ⟨2, 8, 4, 3⟩]) 1).parent = some 0 ∧
    (peek (buildChain 7 [⟨1, 10, 10, 2⟩, ⟨2, 8, 4, 3⟩]) 0).distance <
      (peek (buildChain 7 [⟨1, 10, 10, 2⟩, ⟨2, 8, 4, 3⟩]) 1).distance ∧
    (peek (buildChain 7 [⟨1, 10, 10, 2⟩, ⟨2, 8, 4, 3⟩]) 1).capacity ≤
      (peek (buildChain 7 [⟨1, 10, 10, 2⟩, ⟨2, 8, 4, 3⟩]) 0).capacity ∧
    (peek (buildChain 7 [⟨1, 10, 10, 2⟩, ⟨2, 8, 4, 3⟩]) 1).free_capacity ≤
      (peek (buildChain 7 [⟨1, 10, 10, 2⟩, ⟨2, 8, 4, 3⟩]) 0).free_capacity :=
  buildChain_monotone_amended 7 [⟨1, 10, 10, 2⟩, ⟨2, 8, 4, 3⟩]
    (by decide) (by decide) 0 (by decide)

/-- One flow share recorded at a station: a next-hop destination (`via`), an
amount, and whether the share is currently restricted.  Modelled from the
spec: `FlowStat`'s share table belongs to the station subsystem, not under
`src/`; the spec describes a "share table of next-hop choices" supporting
"restrict flows to X" as marking, not deletion. -/
structure Share where
  via : Nat
  amount : Nat
  restricted : Bool
deriving DecidableEq

/-- One `FlowStat`: the cargo's ultimate origin station and its share table.
Modelled from the spec: "per-station mapping from origin-station to a share
table of next-hop choices". -/
structure FlowStat where
  origin : Nat
  shares : List Share
deriving DecidableEq

/-- A `FlowStatMap`, as an association list keyed by origin station (the
canonical sorted storage is re-established by `SortStorage`). -/
abbrev FlowStatMap : Type := List FlowStat

/-- `FlowStatMap::erase(origin)`.  Modelled from the spec: "removes every
flow-share entry whose origin is `from`". -/
def FlowStatMap.eraseOrigin (m : FlowStatMap) (o : Nat) : FlowStatMap :=
  m.filter (fun fs => fs.origin != o)

/-- Delete from one `FlowStat` every share whose destination is `v`. -/
def FlowStat.deleteVia (fs : FlowStat) (v : Nat) : FlowStat :=
  { fs with shares := fs.shares.filter (fun sh => sh.via != v) }

/-- `FlowStatMap::DeleteFlows(via)`.  Modelled from the spec: "delete all flow
shares whose destination is that station from the node's new flow set", the
entries left empty being dropped and their origins returned (the
`StationIDStack` consumed by the cascade). -/
def FlowStatMap.deleteFlows : FlowStatMap → Nat → FlowStatMap × List Nat
  | [], _ => ([], [])
  | fs :: rest, v =>
      let fs2 := fs.deleteVia v
      let r := FlowStatMap.deleteFlows rest v
      if fs2.shares.isEmpty then (r.1, fs.origin :: r.2) else (fs2 :: r.1, r.2)

/-- `FlowStatMap::RestrictFlows(via)`.  Modelled from the spec: "shares are
marked restricted, not deleted". -/
def FlowStatMap.restrictFlows (m : FlowStatMap) (v : Nat) : FlowStatMap :=
  m.map (fun fs =>
    { fs with shares := fs.shares.map (fun sh =>
        if sh.via = v then { sh with restricted := true } else sh) })

/-- Does the map contain an entry keyed by origin `o`? -/
def FlowStatMap.hasOrigin (m : FlowStatMap) (o : Nat) : Bool :=
  m.any (fun fs => fs.origin == o)

/-- Does any entry of the map hold a share whose destination is `v`? -/
def FlowStatMap.hasVia (m : FlowStatMap) (v : Nat) : Bool :=
  m.any (fun fs => fs.shares.any (fun sh => sh.via == v))

/-- `FlowStatMap::find(origin)` (first entry with the given origin). -/
def FlowStatMap.findOrigin (m : FlowStatMap) (o : Nat) : Option FlowStat :=
  m.find? (fun fs => fs.origin == o)

/-- The merge loop of `FinaliseJob` (lines 148-171): iterate over the live
flow map `ge.flows`; for each entry look up its origin in the freshly
computed map.  If found, swap in the new shares (`SwapShares`) and consume
the computed entry; if not found, hard-erase when distribution is manual,
otherwise invalidate (an injected policy `inval`, returning should-erase and
the invalidated shares: the spec says the decay criterion is an external
predicate) and erase only when invalidation says so, rerouting the erased
entry's (possibly invalidated) shares.  Returns (surviving live entries,
remaining computed entries, rerouted shares in iteration order). -/
def mergeFlows (manual : Bool) (inval : FlowStat → Bool × List Share) :
    FlowStatMap → FlowStatMap → FlowStatMap × FlowStatMap × List Share
  | [], comp => ([], comp, [])
  | fs :: rest, comp =>
      match FlowStatMap.findOrigin comp fs.origin with
      | some cfs =>
          let r := mergeFlows manual inval rest (FlowStatMap.eraseOrigin comp fs.origin)
          ({ fs with shares := cfs.shares } :: r.1, r.2.1, r.2.2)
      | none =>
          if manual then
          let r := mergeFlows manual inval rest comp
          (r.1, r.2.1, fs.shares ++ r.2.2)
          else if (inval fs).1 then
          let r := mergeFlows manual inval rest comp
          (r.1, r.2.1, (inval fs).2 ++ r.2.2)
          else
          let r := mergeFlows manual inval rest comp
          ({ fs with shares := (inval fs).2 } :: r.1, r.2.1, r.2.2)

/-- Sorted insertion by origin, the order re-established by
`FlowStatMap::SortStorage`.  Modelled from the spec: "the live flow storage
... is re-sorted into its canonical order". -/
def sortInsert (fs : FlowStat) : FlowStatMap → FlowStatMap
  | [] => [fs]
  | g :: rest => if fs.origin ≤ g.origin then fs :: g :: rest else g :: sortInsert fs rest

/-- `FlowStatMap::SortStorage()`: canonical re-sort by origin. -/
def sortByOrigin (m : FlowStatMap) : FlowStatMap := m.foldr sortInsert []

/-- The whole merge step: run the merge loop, insert the unconsumed computed
entries into the live map (lines 172-174), re-sort (line 175).  Returns the
final live map and the rerouted shares. -/
def applyMerge (manual : Bool) (inval : FlowStat → Bool × List Share)
    (live comp : FlowStatMap) : FlowStatMap × List Share :=
  let r := mergeFlows manual inval live comp
  (sortByOrigin (r.1 ++ r.2.1), r.2.2)

/-- What the merge loop keeps of one live entry, as a function of the original
computed map (valid when live origins are distinct). -/
def keptSpec (manual : Bool) (inval : FlowStat → Bool × List Share) (comp : FlowStatMap)
    (fs : FlowStat) : Option FlowStat :=
  match FlowStatMap.findOrigin comp fs.origin with
  | some cfs => some { fs with shares := cfs.shares }
  | none =>
      if manual then none
      else if (inval fs).1 then none else some { fs with shares := (inval fs).2 }

theorem findOrigin_eraseOrigin_ne (m : FlowStatMap) (o O : Nat) (h : O ≠ o) :
    FlowStatMap.findOrigin (FlowStatMap.eraseOrigin m o) O = FlowStatMap.findOrigin m O := by
  induction m with
  | nil => rfl
  | cons fs rest ih =>
      simp only [FlowStatMap.eraseOrigin, FlowStatMap.findOrigin, List.filter_cons] at *
      by_cases ho : fs.origin = o
      · have h2 : (fs.origin == O) = false := by
          simp only [beq_eq_false_iff_ne]
          rw [ho]
          exact fun hc => h hc.symm
        have h3 : (o == O) = false := by
          simp only [beq_eq_false_iff_ne]
          exact fun hc => h hc.symm
        simp [ho, h2, h3, List.find?_cons, ih]
      · cases hO : (fs.origin == O) with
        | true => simp [ho, hO, List.find?_cons]
        | false => simp [ho, hO, List.find?_cons, ih]

theorem hasOrigin_iff (m : FlowStatMap) (o : Nat) :
    FlowStatMap.hasOrigin m o = true ↔ ∃ fs ∈ m, fs.origin = o := by
  simp [FlowStatMap.hasOrigin, List.any_eq_true]

theorem mergeFlows_char (manual : Bool) (inval : FlowStat → Bool × List Share) :
    ∀ (L C : FlowStatMap), (L.map FlowStat.origin).Nodup →
      (mergeFlows manual inval L C).1 = L.filterMap (keptSpec manual inval C) ∧
      (mergeFlows manual inval L C).2.1 =
        C.filter (fun cfs => !(FlowStatMap.hasOrigin L cfs.origin)) := by
  intro L
  induction L with
  | nil =>
      intro C _
      refine ⟨rfl, ?_⟩
      show C = C.filter _
      rw [List.filter_congr (fun c _ => ?_), List.filter_true]
      simp [FlowStatMap.hasOrigin]
  | cons fs rest ih =>
      intro C hnd
      have hno : fs.origin ∉ rest.map FlowStat.origin := (List.nodup_cons.mp hnd).1
      have hndrest : (rest.map FlowStat.origin).Nodup := (List.nodup_cons.mp hnd).2
      have horig : ∀ g ∈ rest, g.origin ≠ fs.origin := by
        intro g hg hc
        exact hno (hc ▸ List.mem_map_of_mem FlowStat.origin hg)
      simp only [mergeFlows]
      cases hfind : FlowStatMap.findOrigin C fs.origin with
      | some cfs =>
          simp only [hfind]
          have ihr := ih (FlowStatMap.eraseOrigin C fs.origin) hndrest
          refine ⟨?_, ?_⟩
          · show _ :: (mergeFlows manual inval rest (FlowStatMap.eraseOrigin C fs.origin)).1 = _
            rw [ihr.1, List.filterMap_cons]
            have hk : keptSpec manual inval C fs = some { fs with shares := cfs.shares } := by
              simp [keptSpec, hfind]
            rw [hk]
            have hcongr : rest.filterMap (keptSpec manual inval (FlowStatMap.eraseOrigin C fs.origin)) =
                rest.filterMap (keptSpec manual inval C) := by
              refine List.filterMap_congr (fun g hg => ?_)
              simp only [keptSpec,
                findOrigin_eraseOrigin_ne C fs.origin g.origin (horig g hg)]
            rw [hcongr]
          · show (mergeFlows manual inval rest (FlowStatMap.eraseOrigin C fs.origin)).2.1 = _
            rw [ihr.2]
            show (FlowStatMap.eraseOrigin C fs.origin).filter _ = C.filter _
            rw [FlowStatMap.eraseOrigin, List.filter_filter]
            refine List.filter_congr (fun c _ => ?_)
            simp only [FlowStatMap.hasOrigin, List.any_cons, Bool.not_or, bne]
            rw [Bool.beq_comm]
            rw [Bool.and_comm]
      | none =>
          simp only [hfind]
          have hCno : ∀ c ∈ C, c.origin ≠ fs.origin := by
            intro c hc hcc
            have := List.find?_eq_none.mp hfind c hc
            simp [hcc] at this
          have hfil : C.filter (fun cfs => !(FlowStatMap.hasOrigin (fs :: rest) cfs.origin)) =
              C.filter (fun cfs => !(FlowStatMap.hasOrigin rest cfs.origin)) := by
            refine List.filter_congr (fun c hc => ?_)
            simp only [FlowStatMap.hasOrigin, List.any_cons, Bool.not_or]
            have hb : (fs.origin == c.origin) = false := by
              simp only [beq_eq_false_iff_ne]
              exact fun hc2 => hCno c hc (hc2.symm)
            rw [hb]
            simp
          have ihr := ih C hndrest
          have hkeep : keptSpec manual inval C fs =
              (if manual then none
               else if (inval fs).1 then none
               else some { fs with shares := (inval fs).2 }) := by
            simp only [keptSpec, hfind]
          clear hkeep
          rcases hman : manual with _ | _
          · rw [hman] at ihr
            rcases hse : (inval fs).1 with _ | _
            · have hk : keptSpec false inval C fs =
                  some { fs with shares := (inval fs).2 } := by
                simp [keptSpec, hfind, hse]
              refine ⟨?_, ?_⟩
              · show ({ fs with shares := (inval fs).2 } ::
                    (mergeFlows false inval rest C).1) = _
                rw [List.filterMap_cons, hk, ihr.1]
              · show (mergeFlows false inval rest C).2.1 = _
                rw [ihr.2]
                exact hfil.symm
            · have hk : keptSpec false inval C fs = none := by
                simp [keptSpec, hfind, hse]
              refine ⟨?_, ?_⟩
              · show (mergeFlows false inval rest C).1 = _
                rw [List.filterMap_cons, hk]
                exact ihr.1
              · show (mergeFlows false inval rest C).2.1 = _
                rw [ihr.2]
                exact hfil.symm
          · rw [hman] at ihr
            have hk : keptSpec true inval C fs = none := by
              simp [keptSpec, hfind]
            refine ⟨?_, ?_⟩
            · show (mergeFlows true inval rest C).1 = _
              rw [List.filterMap_cons, hk]
              exact ihr.1
            · show (mergeFlows true inval rest C).2.1 = _
              rw [ihr.2]
              exact hfil.symm

theorem sortInsert_perm (fs : FlowStat) : ∀ (l : FlowStatMap), (sortInsert fs l).Perm (fs :: l) := by
  intro l
  induction l with
  | nil => exact List.Perm.refl _
  | cons g rest ih =>
      rw [sortInsert]
      by_cases h : fs.origin ≤ g.origin
      · rw [if_pos h]
      · rw [if_neg h]
        exact (ih.cons g).trans (List.Perm.swap fs g rest)

theorem sortByOrigin_perm (m : FlowStatMap) : (sortByOrigin m).Perm m := by
  induction m with
  | nil => exact List.Perm.refl _
  | cons fs rest ih =>
      show (sortInsert fs (sortByOrigin rest)).Perm _
      exact (sortInsert_perm fs (sortByOrigin rest)).trans (ih.cons fs)

theorem hasOrigin_false_iff (m : FlowStatMap) (o : Nat) :
    FlowStatMap.hasOrigin m o = false ↔ ∀ fs ∈ m, fs.origin ≠ o := by
  simp [FlowStatMap.hasOrigin, List.any_eq_false]

theorem findOrigin_eq_none_iff (m : FlowStatMap) (o : Nat) :
    FlowStatMap.findOrigin m o = none ↔ ∀ fs ∈ m, fs.origin ≠ o := by
  rw [FlowStatMap.findOrigin, List.find?_eq_none]
  constructor
  · intro h fs hfs
    have := h fs hfs
    simpa using this
  · intro h fs hfs
    simpa using h fs hfs

theorem keptSpec_origin (manual : Bool) (inval : FlowStat → Bool × List Share)
    (C : FlowStatMap) (g fs : FlowStat) (h : keptSpec manual inval C g = some fs) :
    fs.origin = g.origin := by
  rw [keptSpec] at h
  cases hfind : FlowStatMap.findOrigin C g.origin with
  | some cfs =>
      rw [hfind] at h
      cases h
      rfl
  | none =>
      rw [hfind] at h
      by_cases hm : manual = true
      · rw [if_pos hm] at h
        cases h
      · rw [if_neg hm] at h
        by_cases hi : (inval g).1 = true
        · rw [if_pos hi] at h
          cases h
        · rw [if_neg hi] at h
          cases h
          rfl

/-- C2 (amended): for the merge step of `FinaliseJob`, with distinct live
origins: (a) when automatic distribution is in effect and the invalidation
policy retains every entry unchanged, disjoint origins give a merged map that
is exactly `L ∪ C` (a permutation of `L ++ C`, no entry lost or duplicated);
(b) for an origin present in both `L` and `C`, the merged map's entry for
that origin carries `C`'s shares, not `L`'s.  The unqualified claim fails
(see the counterexample): with manual distribution, live entries whose origin
is absent from `C` are hard-erased, so the merged map is not `L ∪ C`. -/
theorem mergeFlows_union_amended (manual : Bool) (inval : FlowStat → Bool × List Share)
    (L C : FlowStatMap) (hL : (L.map FlowStat.origin).Nodup) :
    ((∀ fs ∈ L, FlowStatMap.hasOrigin C fs.origin = false) →
      (∀ fs, inval fs = (false, fs.shares)) →
      (applyMerge false inval L C).1.Perm (L ++ C)) ∧
    (∀ (O : Nat) (cfs : FlowStat), FlowStatMap.findOrigin C O = some cfs →
      FlowStatMap.hasOrigin L O = true →
      (⟨O, cfs.shares⟩ : FlowStat) ∈ (applyMerge manual inval L C).1 ∧
      ∀ fs ∈ (applyMerge manual inval L C).1, fs.origin = O → fs = ⟨O, cfs.shares⟩) := by
  constructor
  · intro hdisj hkeep
    have hchar := mergeFlows_char false inval L C hL
    have hkept : (mergeFlows false inval L C).1 = L := by
      rw [hchar.1]
      have : L.filterMap (keptSpec false inval C) = L.filterMap (fun fs => some fs) := by
        refine List.filterMap_congr (fun g hg => ?_)
        have hfn : FlowStatMap.findOrigin C g.origin = none :=
          (findOrigin_eq_none_iff C g.origin).mpr
            (fun c hc hcc => by
              have := (hasOrigin_iff C g.origin).mpr ⟨c, hc, hcc⟩
              rw [hdisj g hg] at this
              cases this)
        simp [keptSpec, hfn, hkeep g]
      rw [this, List.filterMap_some]
    have hrem : (mergeFlows false inval L C).2.1 = C := by
      rw [hchar.2]
      rw [List.filter_congr (fun c hc => ?_), List.filter_true]
      have : FlowStatMap.hasOrigin L c.origin = false := by
        rw [hasOrigin_false_iff]
        intro fs hfs hcc
        have := (hasOrigin_iff C fs.origin).mpr ⟨c, hc, hcc.symm⟩
        rw [hdisj fs hfs] at this
        cases this
      rw [this]
      rfl
    show (sortByOrigin ((mergeFlows false inval L C).1 ++ (mergeFlows false inval L C).2.1)).Perm _
    rw [hkept, hrem]
    exact sortByOrigin_perm (L ++ C)
  · intro O cfs hfind hasL
    have hchar := mergeFlows_char manual inval L C hL
    obtain ⟨fs0, hfs0, hfs0o⟩ := (hasOrigin_iff L O).mp hasL
    have hperm : (applyMerge manual inval L C).1.Perm
        ((mergeFlows manual inval L C).1 ++ (mergeFlows manual inval L C).2.1) :=
      sortByOrigin_perm _
    have hk0 : keptSpec manual inval C fs0 = some ⟨O, cfs.shares⟩ := by
      rw [keptSpec, hfs0o, hfind]
    constructor
    · rw [hperm.mem_iff, List.mem_append]
      left
      rw [hchar.1]
      exact List.mem_filterMap.mpr ⟨fs0, hfs0, hk0⟩
    · intro fs hfs hfso
      rw [hperm.mem_iff, List.mem_append] at hfs
      rcases hfs with hfs | hfs
      · rw [hchar.1] at hfs
        obtain ⟨g, hg, hkg⟩ := List.mem_filterMap.mp hfs
        have hgo : g.origin = O := by
          rw [← keptSpec_origin manual inval C g fs hkg, hfso]
        rw [keptSpec, hgo, hfind] at hkg
        cases hkg
        rfl
      · rw [hchar.2] at hfs
        have := List.of_mem_filter hfs
        rw [hfso] at this
        rw [hasL] at this
        cases this

/-- An invalidation policy that retains every entry unchanged (the injected
decay predicate electing to keep everything). -/
def invalKeep : FlowStat → Bool × List Share := fun fs => (false, fs.shares)

theorem mergeFlows_union_amended_witness :
    (applyMerge false invalKeep [⟨5, [⟨7, 3, false⟩]⟩] [⟨9, [⟨2, 1, false⟩]⟩]).1.Perm
      ([⟨5, [⟨7, 3, false⟩]⟩] ++ [⟨9, [⟨2, 1, false⟩]⟩]) ∧
    (⟨5, [⟨8, 4, false⟩]⟩ : FlowStat) ∈
      (applyMerge true invalKeep [⟨5, [⟨7, 3, false⟩]⟩] [⟨5, [⟨8, 4, false⟩]⟩]).1 :=
  ⟨(mergeFlows_union_amended false invalKeep [⟨5, [⟨7, 3, false⟩]⟩] [⟨9, [⟨2, 1, false⟩]⟩]
      (by decide)).1 (by decide) (fun fs => rfl),
   ((mergeFlows_union_amended true invalKeep [⟨5, [⟨7, 3, false⟩]⟩] [⟨5, [⟨8, 4, false⟩]⟩]
      (by decide)).2 5 ⟨5, [⟨8, 4, false⟩]⟩ (by decide) (by decide)).1⟩

/-- C2 counterexample: with manual distribution (`DT_MANUAL`), a live map `L`
with single origin 5 and a computed map `C` with the disjoint origin 9 merge
to a map that has lost the origin-5 entry entirely — the merge loop
hard-erases live entries whose origin is absent from the computed set — so
the result is not `L ∪ C`. -/
theorem mergeFlows_union_counterexample :
    FlowStatMap.hasOrigin [⟨9, [⟨2, 1, false⟩]⟩] 5 = false ∧
    FlowStatMap.hasOrigin
      (applyMerge true invalKeep [⟨5, [⟨7, 3, false⟩]⟩] [⟨9, [⟨2, 1, false⟩]⟩]).1 5 = false ∧
    FlowStatMap.hasOrigin ([⟨5, [⟨7, 3, false⟩]⟩] ++ [⟨9, [⟨2, 1, false⟩]⟩]) 5 = true := by
  decide

/-- The per-cargo goods entry of a live station (`st->goods[cargo]`) as read
and written by `FinaliseJob`: the live graph id, the node index within it,
and the live flow map.  Modelled from the spec: `GoodsEntry` belongs to the
station subsystem, not under `src/`. -/
structure GoodsEntry where
  link_graph : Nat
  node : Nat
  flows : FlowStatMap
deriving DecidableEq

/-- The live world as seen by `FinaliseJob`: station lookup by id for the
job's cargo (`Station::GetIfValid` composed with `goods[cargo]`, `none` when
the station does not exist), `LinkGraph::IsValidID`, and the live graph's
per-edge `LastUpdate`/`LastUnrestrictedUpdate` validity (`≠ INVALID_DATE`).
Modelled from the spec: these collaborators are not under `src/`. -/
structure World where
  stations : Nat → Option GoodsEntry
  validLG : Nat → Bool
  lastUpdateValid : Nat → Nat → Bool
  lastUnrestrictedValid : Nat → Nat → Bool

/-- The destination-vanished test of `FinaliseJob` (lines 128-131): the
destination station no longer exists, or its goods entry points at a
different graph or node index, or the live edge's any-update timestamp is
`INVALID_DATE`. -/
def vanishCond (w : World) (jidx : Nat) (stTo dst node_id : Nat) : Bool :=
  match w.stations stTo with
  | none => true
  | some ge2 => ge2.link_graph != jidx || ge2.node != dst || !(w.lastUpdateValid node_id dst)

/-- The edge loop of `FinaliseJob` (lines 125-142) over outgoing snapshot
edges of `node_id`: skip edges with zero annotation flow (and the self slot,
which the edge iterator never yields); on a vanished destination, delete that
destination's shares from the computed map and cascade-erase the dropped
origins from the live map; on a fully restricted edge, mark the shares
restricted.  State is (computed flows, live ge.flows). -/
def cleanupEdges (w : World) (jidx : Nat) (stationOf : Nat → Nat)
    (edgeFlow : Nat → Nat → Nat) (node_id : Nat) :
    List Nat → FlowStatMap × FlowStatMap → FlowStatMap × FlowStatMap
  | [], st => st
  | dst :: rest, (flows, gef) =>
      if dst = node_id ∨ edgeFlow node_id dst = 0 then
        cleanupEdges w jidx stationOf edgeFlow node_id rest (flows, gef)
      else if vanishCond w jidx (stationOf dst) dst node_id then
        let d := FlowStatMap.deleteFlows flows (stationOf dst)
        cleanupEdges w jidx stationOf edgeFlow node_id rest
          (d.1, d.2.foldl FlowStatMap.eraseOrigin gef)
      else if !(w.lastUnrestrictedValid node_id dst) then
        cleanupEdges w jidx stationOf edgeFlow node_id rest
          (FlowStatMap.restrictFlows flows (stationOf dst), gef)
      else cleanupEdges w jidx stationOf edgeFlow node_id rest (flows, gef)

theorem deleteFlows_hasVia_self (m : FlowStatMap) (v : Nat) :
    FlowStatMap.hasVia (FlowStatMap.deleteFlows m v).1 v = false := by
  induction m with
  | nil => rfl
  | cons fs rest ih =>
      simp only [FlowStatMap.deleteFlows]
      split
      · exact ih
      · simp only [FlowStatMap.hasVia, List.any_cons, Bool.or_eq_false_iff]
        refine ⟨?_, ih⟩
        simp only [FlowStat.deleteVia, List.any_eq_false]
        intro sh hsh
        have := List.of_mem_filter hsh
        simpa using this

theorem deleteFlows_hasVia_mono (m : FlowStatMap) (v B : Nat)
    (h : FlowStatMap.hasVia m B = false) :
    FlowStatMap.hasVia (FlowStatMap.deleteFlows m v).1 B = false := by
  induction m with
  | nil => rfl
  | cons fs rest ih =>
      simp only [FlowStatMap.hasVia, List.any_cons, Bool.or_eq_false_iff] at h
      simp only [FlowStatMap.deleteFlows]
      split
      · exact ih h.2
      · simp only [FlowStatMap.hasVia, List.any_cons, Bool.or_eq_false_iff]
        refine ⟨?_, ih h.2⟩
        simp only [FlowStat.deleteVia, List.any_eq_false]
        intro sh hsh
        have hmem := List.mem_of_mem_filter hsh
        have := List.any_eq_false.mp h.1 sh hmem
        exact this

theorem hasVia_eq_false_iff (m : FlowStatMap) (B : Nat) :
    FlowStatMap.hasVia m B = false ↔ ∀ fs ∈ m, ∀ sh ∈ fs.shares, sh.via ≠ B := by
  simp [FlowStatMap.hasVia, List.any_eq_false]

theorem restrictFlows_hasVia_mono (m : FlowStatMap) (v B : Nat)
    (h : FlowStatMap.hasVia m B = false) :
    FlowStatMap.hasVia (FlowStatMap.restrictFlows m v) B = false := by
  rw [hasVia_eq_false_iff] at h ⊢
  intro fs hfs sh hsh
  rw [FlowStatMap.restrictFlows] at hfs
  obtain ⟨g, hg, rfl⟩ := List.mem_map.mp hfs
  obtain ⟨sh0, hsh0, rfl⟩ := List.mem_map.mp hsh
  have hne := h g hg sh0 hsh0
  by_cases hv : sh0.via = v
  · rw [if_pos hv]
    exact hne
  · rw [if_neg hv]
    exact hne

theorem restrictFlows_hasOrigin (m : FlowStatMap) (v O : Nat) :
    FlowStatMap.hasOrigin (FlowStatMap.restrictFlows m v) O = FlowStatMap.hasOrigin m O := by
  simp only [FlowStatMap.hasOrigin, FlowStatMap.restrictFlows, List.any_map]
  rfl

theorem deleteFlows_dropped_mem (m : FlowStatMap) (v O : Nat)
    (h1 : FlowStatMap.hasOrigin m O = true)
    (h2 : FlowStatMap.hasOrigin (FlowStatMap.deleteFlows m v).1 O = false) :
    O ∈ (FlowStatMap.deleteFlows m v).2 := by
  induction m with
  | nil => cases h1
  | cons fs rest ih =>
      simp only [FlowStatMap.hasOrigin, List.any_cons, Bool.or_eq_true] at h1
      by_cases hemp : (fs.deleteVia v).shares.isEmpty = true
      · rw [FlowStatMap.deleteFlows, if_pos hemp] at h2 ⊢
        rcases h1 with h1 | h1
        · have ho : fs.origin = O := by simpa using h1
          exact List.mem_cons.mpr (Or.inl ho.symm)
        · exact List.mem_cons.mpr (Or.inr (ih h1 h2))
      · rw [FlowStatMap.deleteFlows, if_neg hemp] at h2 ⊢
        simp only [FlowStatMap.hasOrigin, List.any_cons, Bool.or_eq_false_iff] at h2
        rcases h1 with h1 | h1
        · exfalso
          have ho : fs.origin = O := by simpa using h1
          have hvo : (fs.deleteVia v).origin = O := ho
          rw [beq_eq_false_iff_ne] at h2
          exact h2.1 hvo
        · exact ih h1 h2.2

theorem deleteFlows_hasOrigin_mono (m : FlowStatMap) (v O : Nat)
    (h : FlowStatMap.hasOrigin m O = false) :
    FlowStatMap.hasOrigin (FlowStatMap.deleteFlows m v).1 O = false := by
  induction m with
  | nil => rfl
  | cons fs rest ih =>
      simp only [FlowStatMap.hasOrigin, List.any_cons, Bool.or_eq_false_iff] at h
      simp only [FlowStatMap.deleteFlows]
      split
      · exact ih h.2
      · simp only [FlowStatMap.hasOrigin, List.any_cons, Bool.or_eq_false_iff]
        exact ⟨h.1, ih h.2⟩

theorem eraseOrigin_hasOrigin_false (m : FlowStatMap) (o O : Nat)
    (h : FlowStatMap.hasOrigin m O = false) :
    FlowStatMap.hasOrigin (FlowStatMap.eraseOrigin m o) O = false := by
  simp only [FlowStatMap.hasOrigin, FlowStatMap.eraseOrigin, List.any_eq_false] at *
  intro fs hfs
  exact h fs (List.mem_of_mem_filter hfs)

theorem eraseOrigin_hasOrigin_self (m : FlowStatMap) (o : Nat) :
    FlowStatMap.hasOrigin (FlowStatMap.eraseOrigin m o) o = false := by
  simp only [FlowStatMap.hasOrigin, FlowStatMap.eraseOrigin, List.any_eq_false]
  intro fs hfs
  have := List.of_mem_filter hfs
  simpa using this

theorem foldl_eraseOrigin_false (l : List Nat) :
    ∀ (gef : FlowStatMap) (O : Nat), FlowStatMap.hasOrigin gef O = false →
      FlowStatMap.hasOrigin (l.foldl FlowStatMap.eraseOrigin gef) O = false := by
  induction l with
  | nil => intro gef O h; exact h
  | cons o rest ih =>
      intro gef O h
      exact ih _ O (eraseOrigin_hasOrigin_false gef o O h)

theorem foldl_eraseOrigin_mem (l : List Nat) :
    ∀ (gef : FlowStatMap) (O : Nat), O ∈ l →
      FlowStatMap.hasOrigin (l.foldl FlowStatMap.eraseOrigin gef) O = false := by
  induction l with
  | nil => intro gef O h; cases h
  | cons o rest ih =>
      intro gef O h
      rcases List.mem_cons.mp h with h | h
      · subst h
        exact foldl_eraseOrigin_false rest _ O (eraseOrigin_hasOrigin_self gef O)
      · exact ih _ O h

theorem cleanup_noVia (w : World) (jidx : Nat) (stationOf : Nat → Nat)
    (edgeFlow : Nat → Nat → Nat) (node_id : Nat) :
    ∀ (l : List Nat) (flows gef : FlowStatMap) (B : Nat),
      FlowStatMap.hasVia flows B = false →
      FlowStatMap.hasVia
        (cleanupEdges w jidx stationOf edgeFlow node_id l (flows, gef)).1 B = false := by
  intro l
  induction l with
  | nil => intro flows gef B h; exact h
  | cons dst rest ih =>
      intro flows gef B h
      simp only [cleanupEdges]
      split
      · exact ih flows gef B h
      · split
        · exact ih _ _ B (deleteFlows_hasVia_mono flows _ B h)
        · split
          · exact ih _ _ B (restrictFlows_hasVia_mono flows _ B h)
          · exact ih flows gef B h

theorem cleanup_establish (w : World) (jidx : Nat) (stationOf : Nat → Nat)
    (edgeFlow : Nat → Nat → Nat) (node_id : Nat) :
    ∀ (l : List Nat) (flows gef : FlowStatMap) (dst : Nat),
      dst ∈ l → dst ≠ node_id → edgeFlow node_id dst ≠ 0 →
      vanishCond w jidx (stationOf dst) dst node_id = true →
      FlowStatMap.hasVia
        (cleanupEdges w jidx stationOf edgeFlow node_id l (flows, gef)).1
        (stationOf dst) = false := by
  intro l
  induction l with
  | nil => intro flows gef dst hmem; cases hmem
  | cons d rest ih =>
      intro flows gef dst hmem hne hef hv
      simp only [cleanupEdges]
      rcases List.mem_cons.mp hmem with heq | hmem2
      · subst heq
        rw [if_neg (fun h => Or.elim h hne hef), if_pos hv]
        exact cleanup_noVia w jidx stationOf edgeFlow node_id rest _ _ _
          (deleteFlows_hasVia_self flows (stationOf dst))
      · split
        · exact ih flows gef dst hmem2 hne hef hv
        · split
          · exact ih _ _ dst hmem2 hne hef hv
          · split
            · exact ih _ _ dst hmem2 hne hef hv
            · exact ih flows gef dst hmem2 hne hef hv

/-- The cascade invariant of the edge loop: any origin present in the original
computed map but no longer in the current computed map has also been erased
from the live map. -/
def cascadeInv (flows0 flows gef : FlowStatMap) : Prop :=
  ∀ O, FlowStatMap.hasOrigin flows0 O = true →
    FlowStatMap.hasOrigin flows O = false →
    FlowStatMap.hasOrigin gef O = false

theorem cleanup_cascade (w : World) (jidx : Nat) (stationOf : Nat → Nat)
    (edgeFlow : Nat → Nat → Nat) (node_id : Nat) :
    ∀ (l : List Nat) (flows0 flows gef : FlowStatMap),
      cascadeInv flows0 flows gef →
      cascadeInv flows0
        (cleanupEdges w jidx stationOf edgeFlow node_id l (flows, gef)).1
        (cleanupEdges w jidx stationOf edgeFlow node_id l (flows, gef)).2 := by
  intro l
  induction l with
  | nil => intro flows0 flows gef hinv; exact hinv
  | cons d rest ih =>
      intro flows0 flows gef hinv
      simp only [cleanupEdges]
      split
      · exact ih flows0 flows gef hinv
      · split
        · refine ih flows0 _ _ ?_
          intro O hO1 hO2
          by_cases hf : FlowStatMap.hasOrigin flows O = true
          · exact foldl_eraseOrigin_mem _ gef O
              (deleteFlows_dropped_mem flows _ O hf hO2)
          · have hf2 : FlowStatMap.hasOrigin flows O = false := by
              cases hfo : FlowStatMap.hasOrigin flows O
              · rfl
              · exact absurd hfo hf
            exact foldl_eraseOrigin_false _ gef O (hinv O hO1 hf2)
        · split
          · refine ih flows0 _ _ ?_
            intro O hO1 hO2
            rw [restrictFlows_hasOrigin] at hO2
            exact hinv O hO1 hO2
          · exact ih flows0 flows gef hinv

/-- C6: during finalisation's edge loop over the snapshot edges of node `A`
(`node_id`), for every destination `B` whose edge carried non-zero snapshot
flow and which has vanished, was reassigned to a different graph or node
index, or whose live edge's any-update timestamp is invalid: every share with
destination `B`'s station is deleted from `A`'s freshly computed flow set,
and every live flow entry at `A` whose origin was removed from the computed
set this way is erased (the cascade). -/
theorem cleanupEdges_deletes_vanished (w : World) (jidx : Nat)
    (stationOf : Nat → Nat) (edgeFlow : Nat → Nat → Nat) (node_id size : Nat)
    (flows gef : FlowStatMap) :
    (∀ dst, dst < size → dst ≠ node_id → edgeFlow node_id dst ≠ 0 →
      vanishCond w jidx (stationOf dst) dst node_id = true →
      FlowStatMap.hasVia
        (cleanupEdges w jidx stationOf edgeFlow node_id (List.range size) (flows, gef)).1
        (stationOf dst) = false) ∧
    (∀ O, FlowStatMap.hasOrigin flows O = true →
      FlowStatMap.hasOrigin
        (cleanupEdges w jidx stationOf edgeFlow node_id (List.range size) (flows, gef)).1
        O = false →
      FlowStatMap.hasOrigin
        (cleanupEdges w jidx stationOf edgeFlow node_id (List.range size) (flows, gef)).2
        O = false) := by
  constructor
  · intro dst hlt hne hef hv
    exact cleanup_establish w jidx stationOf edgeFlow node_id (List.range size)
      flows gef dst (List.mem_range.mpr hlt) hne hef hv
  · exact cleanup_cascade w jidx stationOf edgeFlow node_id (List.range size)
      flows flows gef (fun O h1 h2 => by rw [h1] at h2; cases h2)

/-- A world in which every station lookup fails (all stations deleted). -/
def emptyWorld : World :=
  { stations := fun _ => none
    validLG := fun _ => true
    lastUpdateValid := fun _ _ => true
    lastUnrestrictedValid := fun _ _ => true }

theorem cleanupEdges_deletes_vanished_witness :
    FlowStatMap.hasVia
      (cleanupEdges emptyWorld 1 (fun n => 10 + n) (fun a b => if a = 0 ∧ b = 1 then 5 else 0)
        0 (List.range 2) ([⟨3, [⟨11, 4, false⟩]⟩], [⟨3, [⟨9, 9, false⟩]⟩])).1 11 = false ∧
    FlowStatMap.hasOrigin
      (cleanupEdges emptyWorld 1 (fun n => 10 + n) (fun a b => if a = 0 ∧ b = 1 then 5 else 0)
        0 (List.range 2) ([⟨3, [⟨11, 4, false⟩]⟩], [⟨3, [⟨9, 9, false⟩]⟩])).2 3 = false := by
  have h := cleanupEdges_deletes_vanished emptyWorld 1 (fun n => 10 + n)
    (fun a b => if a = 0 ∧ b = 1 then 5 else 0) 0 2
    [⟨3, [⟨11, 4, false⟩]⟩] [⟨3, [⟨9, 9, false⟩]⟩]
  exact ⟨h.1 1 (by decide) (by decide) (by decide) (by decide),
    h.2 3 (by decide) (by decide)⟩

/-! ## `LinkGraphJob::EraseFlows` and the finalisation driver -/

/-- The data of a `LinkGraphJob` that finalisation reads: the snapshot graph's
index, the cargo, the node count, each node's station id, the per-edge
annotation flow of the computed result, and each node's freshly computed flow
map (`(*this)[node_id].Flows()`). -/
structure LinkGraphJobData where
  index : Nat
  cargo : Nat
  size : Nat
  stationOf : Nat → Nat
  edgeFlow : Nat → Nat → Nat
  nodeFlows : Nat → FlowStatMap

/-- One iteration of `EraseFlows` (line 65): erase the entries with origin
`src` from node `node_id`'s flow map. -/
def eraseFlowsStep (src : Nat) (acc : LinkGraphJobData) (node_id : Nat) : LinkGraphJobData :=
  { acc with nodeFlows := fun n =>
      if n = node_id then FlowStatMap.eraseOrigin (acc.nodeFlows n) src
      else acc.nodeFlows n }

/-- `LinkGraphJob::EraseFlows(from)` (lines 62-67): for every node id below
the job's size, erase the flows with origin `src` from that node's map. -/
def LinkGraphJobData.eraseFlows (j : LinkGraphJobData) (src : Nat) : LinkGraphJobData :=
  (List.range j.size).foldl (eraseFlowsStep src) j

theorem eraseFlowsAux_notMem (src : Nat) :
    ∀ (l : List Nat) (j : LinkGraphJobData) (i : Nat), i ∉ l →
      (l.foldl (eraseFlowsStep src) j).nodeFlows i = j.nodeFlows i := by
  intro l
  induction l with
  | nil => intro j i _; rfl
  | cons d rest ih =>
      intro j i h
      rw [List.foldl_cons, ih (eraseFlowsStep src j d) i
        (fun hm => h (List.mem_cons_of_mem d hm))]
      show (if i = d then FlowStatMap.eraseOrigin (j.nodeFlows i) src else j.nodeFlows i)
        = j.nodeFlows i
      rw [if_neg (fun he => h (by rw [he]; exact List.mem_cons_self d rest))]

theorem eraseFlowsAux_mem (src : Nat) :
    ∀ (l : List Nat) (j : LinkGraphJobData) (i : Nat), l.Nodup → i ∈ l →
      (l.foldl (eraseFlowsStep src) j).nodeFlows i
        = FlowStatMap.eraseOrigin (j.nodeFlows i) src := by
  intro l
  induction l with
  | nil => intro j i _ h; cases h
  | cons d rest ih =>
      intro j i hnd hmem
      rw [List.foldl_cons]
      rcases List.mem_cons.mp hmem with heq | hm
      · subst heq
        rw [eraseFlowsAux_notMem src rest _ i (List.nodup_cons.mp hnd).1]
        show (if i = i then FlowStatMap.eraseOrigin (j.nodeFlows i) src else j.nodeFlows i)
          = FlowStatMap.eraseOrigin (j.nodeFlows i) src
        rw [if_pos rfl]
      · by_cases heq : i = d
        · subst heq
          exact absurd hm (List.nodup_cons.mp hnd).1
        · rw [ih (eraseFlowsStep src j d) i (List.nodup_cons.mp hnd).2 hm]
          have h1 : (eraseFlowsStep src j d).nodeFlows i = j.nodeFlows i := by
            show (if i = d then FlowStatMap.eraseOrigin (j.nodeFlows i) src
              else j.nodeFlows i) = j.nodeFlows i
            rw [if_neg heq]
          rw [h1]

/-- C8: after `EraseFlows(X)`, every node's flow map inside the job equals its
old map with precisely the origin-`X` entries filtered out — so no entry with
origin `X` remains anywhere, and the rest of each table is exactly the entries
with other origins. -/
theorem eraseFlows_removes_origin (j : LinkGraphJobData) (X i : Nat) (h : i < j.size) :
    (j.eraseFlows X).nodeFlows i = FlowStatMap.eraseOrigin (j.nodeFlows i) X ∧
    FlowStatMap.hasOrigin ((j.eraseFlows X).nodeFlows i) X = false := by
  have h1 : (j.eraseFlows X).nodeFlows i = FlowStatMap.eraseOrigin (j.nodeFlows i) X :=
    eraseFlowsAux_mem X (List.range j.size) j i (List.nodup_range j.size)
      (List.mem_range.mpr h)
  refine ⟨h1, ?_⟩
  rw [h1]
  exact eraseOrigin_hasOrigin_self (j.nodeFlows i) X

/-- A two-node job whose node maps both contain origin-7 entries. -/
def eraseFlowsW : LinkGraphJobData :=
  ⟨1, 0, 2, fun n => n, fun _ _ => 0,
    fun n => if n = 0 then [⟨7, [⟨3, 4, false⟩]⟩, ⟨5, [⟨2, 1, false⟩]⟩]
      else [⟨7, [⟨9, 9, false⟩]⟩]⟩

theorem eraseFlows_removes_origin_witness :
    (eraseFlowsW.eraseFlows 7).nodeFlows 0
      = FlowStatMap.eraseOrigin (eraseFlowsW.nodeFlows 0) 7 ∧
    FlowStatMap.hasOrigin ((eraseFlowsW.eraseFlows 7).nodeFlows 0) 7 = false :=
  eraseFlows_removes_origin eraseFlowsW 7 0 (by decide)

/-! ## `FinaliseJob` (lines 96-178) -/

/-- The link-graph settings block (`LinkGraphSettings`): recalculation timing
parameters and the distribution type per cargo
(`GetDistributionType(cargo)`). -/
structure LinkGraphSettings where
  recalc_time : Nat
  recalc_not_scaled_by_daylength : Bool
  distType : Nat → Nat

/-- `DT_MANUAL` (distribution type 0: no link graph calculations). -/
def DT_MANUAL : Nat := 0

/-- A `LinkGraphJob` as finalisation sees it: the job data plus the settings
snapshot captured by the constructor (line 50, `settings(_settings_game.linkgraph)`). -/
structure LinkGraphJobState where
  data : LinkGraphJobData
  settings : LinkGraphSettings

/-- The mutable state threaded through `FinaliseJob`'s node loop: the live
world, the job (whose node flow maps `EraseFlows` and the edge loop mutate),
and the accumulated `RerouteCargo` log. -/
structure FinaliseState where
  world : World
  job : LinkGraphJobData
  rerouted : List Share

/-- One iteration of `FinaliseJob`'s node loop (lines 104-177): if the
station has vanished (line 109) or its goods entry points at a different
graph or node (line 117), `EraseFlows(node_id)`; otherwise run the edge loop
on (computed flows, live flows), merge, write the merged map back to the
station, and consume the node's computed entries (erased or moved into the
live map by lines 166-174). -/
def processNode (manual : Bool) (inval : FlowStat → Bool × List Share)
    (s : FinaliseState) (node_id : Nat) : FinaliseState :=
  let j := s.job
  let stId := j.stationOf node_id
  match s.world.stations stId with
  | none => { s with job := j.eraseFlows node_id }
  | some ge =>
      if ge.link_graph ≠ j.index ∨ ge.node ≠ node_id then
        { s with job := j.eraseFlows node_id }
      else
        let c := cleanupEdges s.world j.index j.stationOf j.edgeFlow node_id
          (List.range j.size) (j.nodeFlows node_id, ge.flows)
        let m := applyMerge manual inval c.2 c.1
        { world := { s.world with stations := fun n =>
            if n = stId then (some { ge with flows := m.1 }) else s.world.stations n }
          job := { j with nodeFlows := fun n => if n = node_id then [] else j.nodeFlows n }
          rerouted := s.rerouted ++ m.2 }

/-- `LinkGraphJob::FinaliseJob` (lines 96-178).  `g` is the GLOBAL
`_settings_game.linkgraph` at finalisation time: line 152 reads
`_settings_game.linkgraph.GetDistributionType(this->Cargo())`, not the job's
snapshot `this->settings`, which finalisation never consults.  If the job's
graph index is no longer a live graph (line 101), return immediately without
touching anything. -/
def FinaliseJob (g : LinkGraphSettings) (inval : FlowStat → Bool × List Share)
    (w : World) (j : LinkGraphJobState) : FinaliseState :=
  if !(w.validLG j.data.index) then ⟨w, j.data, []⟩
  else (List.range j.data.size).foldl
    (processNode (g.distType j.data.cargo == DT_MANUAL) inval) ⟨w, j.data, []⟩

/-- C7: when the job's originating graph index no longer refers to a live
graph, `FinaliseJob` returns the world unchanged with an empty reroute log
(no live station flow state is mutated), and running it again on the
resulting world returns the very same state — an idempotent no-op. -/
theorem finaliseJob_vanished_graph_noop (g : LinkGraphSettings)
    (inval : FlowStat → Bool × List Share) (w : World) (j : LinkGraphJobState)
    (h : w.validLG j.data.index = false) :
    (FinaliseJob g inval w j).world = w ∧
    (FinaliseJob g inval w j).rerouted = [] ∧
    FinaliseJob g inval (FinaliseJob g inval w j).world j = FinaliseJob g inval w j := by
  have hr : FinaliseJob g inval w j = ⟨w, j.data, []⟩ := by
    simp only [FinaliseJob, h, Bool.not_false, if_true]
  rw [hr]
  exact ⟨rfl, rfl, by simp only [FinaliseJob, h, Bool.not_false, if_true]⟩

/-- A world whose graph-validity test rejects every index. -/
def vanishedWorld : World :=
  ⟨fun n => if n = 10 then some ⟨1, 0, [⟨5, [⟨7, 3, false⟩]⟩]⟩ else none,
   fun _ => false, fun _ _ => true, fun _ _ => true⟩

theorem finaliseJob_vanished_graph_noop_witness :
    (FinaliseJob ⟨0, false, fun _ => 1⟩ invalKeep vanishedWorld
        ⟨⟨1, 0, 1, fun _ => 10, fun _ _ => 0, fun _ => []⟩, ⟨0, false, fun _ => 5⟩⟩).world
      = vanishedWorld ∧
    (FinaliseJob ⟨0, false, fun _ => 1⟩ invalKeep vanishedWorld
        ⟨⟨1, 0, 1, fun _ => 10, fun _ _ => 0, fun _ => []⟩, ⟨0, false, fun _ => 5⟩⟩).rerouted
      = [] ∧
    FinaliseJob ⟨0, false, fun _ => 1⟩ invalKeep
        (FinaliseJob ⟨0, false, fun _ => 1⟩ invalKeep vanishedWorld
          ⟨⟨1, 0, 1, fun _ => 10, fun _ _ => 0, fun _ => []⟩, ⟨0, false, fun _ => 5⟩⟩).world
        ⟨⟨1, 0, 1, fun _ => 10, fun _ _ => 0, fun _ => []⟩, ⟨0, false, fun _ => 5⟩⟩
      = FinaliseJob ⟨0, false, fun _ => 1⟩ invalKeep vanishedWorld
        ⟨⟨1, 0, 1, fun _ => 10, fun _ _ => 0, fun _ => []⟩, ⟨0, false, fun _ => 5⟩⟩ :=
  finaliseJob_vanished_graph_noop ⟨0, false, fun _ => 1⟩ invalKeep vanishedWorld
    ⟨⟨1, 0, 1, fun _ => 10, fun _ _ => 0, fun _ => []⟩, ⟨0, false, fun _ => 5⟩⟩ (by decide)

/-- A world with one live station (id 10) on graph 1, node 0, holding a live
flow entry with origin 5; graph 1 is valid. -/
def cexWorld : World :=
  ⟨fun n => if n = 10 then some ⟨1, 0, [⟨5, [⟨7, 3, false⟩]⟩]⟩ else none,
   fun n => n == 1, fun _ _ => true, fun _ _ => true⟩

/-- A one-node job on graph 1, cargo 0, node 0 at station 10, with an empty
computed flow map (its snapshot settings have distribution type 5). -/
def cexJob : LinkGraphJobState :=
  ⟨⟨1, 0, 1, fun _ => 10, fun _ _ => 0, fun _ => []⟩, ⟨0, false, fun _ => 5⟩⟩

theorem finaliseJob_global_settings_counterexample :
    ¬((FinaliseJob ⟨0, false, fun _ => 0⟩ invalKeep cexWorld cexJob).world.stations 10
      = (FinaliseJob ⟨0, false, fun _ => 1⟩ invalKeep cexWorld cexJob).world.stations 10) := by
  decide

/-- C1 (amended): `FinaliseJob` is independent of the job's settings snapshot
and of every component of the global settings other than the distribution
type of the job's cargo: if two global settings agree on
`GetDistributionType(cargo)`, finalisation from the same world and job data
yields identical results, whatever the snapshots were.  The original claim is
false: line 152 reads the distribution type from the GLOBAL
`_settings_game.linkgraph`, not from the snapshot, so flipping the global
type to or from manual after job creation changes the resulting live flows. -/
theorem finaliseJob_settings_amended (g1 g2 : LinkGraphSettings)
    (inval : FlowStat → Bool × List Share) (w : World) (d : LinkGraphJobData)
    (s1 s2 : LinkGraphSettings) (h : g1.distType d.cargo = g2.distType d.cargo) :
    FinaliseJob g1 inval w ⟨d, s1⟩ = FinaliseJob g2 inval w ⟨d, s2⟩ := by
  show (if !(w.validLG d.index) then (⟨w, d, []⟩ : FinaliseState)
      else (List.range d.size).foldl
        (processNode (g1.distType d.cargo == DT_MANUAL) inval) ⟨w, d, []⟩)
    = (if !(w.validLG d.index) then (⟨w, d, []⟩ : FinaliseState)
      else (List.range d.size).foldl
        (processNode (g2.distType d.cargo == DT_MANUAL) inval) ⟨w, d, []⟩)
  rw [h]

theorem finaliseJob_settings_amended_witness :
    FinaliseJob ⟨0, false, fun _ => 1⟩ invalKeep cexWorld cexJob
      = FinaliseJob ⟨99, true, fun _ => 1⟩ invalKeep cexWorld
          ⟨⟨1, 0, 1, fun _ => 10, fun _ _ => 0, fun _ => []⟩, ⟨7, true, fun _ => 2⟩⟩ :=
  finaliseJob_settings_amended ⟨0, false, fun _ => 1⟩ ⟨99, true, fun _ => 1⟩
    invalKeep cexWorld ⟨1, 0, 1, fun _ => 10, fun _ _ => 0, fun _ => []⟩
    ⟨0, false, fun _ => 5⟩ ⟨7, true, fun _ => 2⟩ (by decide)
